import Mathlib

/-!
Verification development for the nexus-collection-dl core:
shallow embeddings of the Diff Engine (state.py), Load Order Resolver
(loadorder.py), Deployment Classifier / Executor (deploy.py) and the
plugin-order merge (loot_sort.py), with theorems settling the
specification claims about them.
-/

namespace NexusDL

/-! ## Diff Engine (state.py, `CollectionState.compare_with_collection`)

`ModSt` models the fields of `ModState` that the diff reads
(`mod_id`, `file_id`, `manual`); the remaining fields (`name`,
`version`, `filename`, `installed_at`, `optional`, `position`,
`phase`, `requirements`) do not influence `compare_with_collection`.
`CollectionState.mods` is a Python dict `mod_id -> ModState`, modelled
as an association list with unique keys; `dict.get` is `List.lookup`.
A collection mod dict contributes only its `"mod_id"` and `"file_id"`
entries to the diff, modelled as `CMod`. -/

structure ModSt where
  mod_id : Int
  file_id : Int
  manual : Bool
deriving DecidableEq, Repr

structure CMod where
  mod_id : Int
  file_id : Int
deriving DecidableEq, Repr

/-- The `for mod in collection_mods` loop of `compare_with_collection`
(state.py lines 196-205): each collection mod is appended to exactly one
of `to_install` / `to_update` / `up_to_date` depending on the installed
lookup and `file_id` comparison. -/
def diffBuckets (mods : List (Int × ModSt)) :
    List CMod → List CMod × List CMod × List CMod
  | [] => ([], [], [])
  | m :: rest =>
    let (ti, tu, ut) := diffBuckets mods rest
    match mods.lookup m.mod_id with
    | none => (m :: ti, tu, ut)
    | some inst =>
      if inst.file_id ≠ m.file_id then (ti, m :: tu, ut) else (ti, tu, m :: ut)

/-- Embedding of `CollectionState.compare_with_collection` (state.py lines
177-210).  `to_remove` is `installed_mod_ids - collection_mod_ids -
manual_mod_ids`; Python set difference has unspecified iteration order, so it
is modelled as an order-preserving filter over the installed keys. -/
def compare_with_collection (mods : List (Int × ModSt)) (coll : List CMod) :
    List CMod × List CMod × List CMod × List Int :=
  let (ti, tu, ut) := diffBuckets mods coll
  let collectionModIds := coll.map (·.mod_id)
  let manualModIds := (mods.filter (fun p => p.2.manual)).map (·.1)
  let toRemove := (mods.map (·.1)).filter
    (fun mid => !(collectionModIds.contains mid) && !(manualModIds.contains mid))
  (ti, tu, ut, toRemove)

/-- Mod-id coverage exactly as claim C1 states it: the union of the four
buckets' mod-id sets equals the set of mod ids appearing in either input
(no manual-mod exclusion). -/
def DiffCoversAllIds (mods : List (Int × ModSt)) (coll : List CMod) : Prop :=
  ∀ i : Int,
    (i ∈ (compare_with_collection mods coll).1.map (·.mod_id) ∨
      i ∈ (compare_with_collection mods coll).2.1.map (·.mod_id) ∨
      i ∈ (compare_with_collection mods coll).2.2.1.map (·.mod_id) ∨
      i ∈ (compare_with_collection mods coll).2.2.2) ↔
    (i ∈ coll.map (·.mod_id) ∨ i ∈ mods.map (·.1))

/-- The amended C1 partition property: the four buckets' mod-id sets are
pairwise disjoint, and their union covers every mod id of either input
except the manual installed mods absent from the latest list (which the
code deliberately leaves out of `to_remove`). -/
def DiffPartitionSpec (mods : List (Int × ModSt)) (coll : List CMod) : Prop :=
  ((compare_with_collection mods coll).1.map (·.mod_id)).Disjoint
      ((compare_with_collection mods coll).2.1.map (·.mod_id)) ∧
  ((compare_with_collection mods coll).1.map (·.mod_id)).Disjoint
      ((compare_with_collection mods coll).2.2.1.map (·.mod_id)) ∧
  ((compare_with_collection mods coll).1.map (·.mod_id)).Disjoint
      (compare_with_collection mods coll).2.2.2 ∧
  ((compare_with_collection mods coll).2.1.map (·.mod_id)).Disjoint
      ((compare_with_collection mods coll).2.2.1.map (·.mod_id)) ∧
  ((compare_with_collection mods coll).2.1.map (·.mod_id)).Disjoint
      (compare_with_collection mods coll).2.2.2 ∧
  ((compare_with_collection mods coll).2.2.1.map (·.mod_id)).Disjoint
      (compare_with_collection mods coll).2.2.2 ∧
  ∀ i : Int,
    (i ∈ (compare_with_collection mods coll).1.map (·.mod_id) ∨
      i ∈ (compare_with_collection mods coll).2.1.map (·.mod_id) ∨
      i ∈ (compare_with_collection mods coll).2.2.1.map (·.mod_id) ∨
      i ∈ (compare_with_collection mods coll).2.2.2) ↔
    (i ∈ coll.map (·.mod_id) ∨
      (i ∈ mods.map (·.1) ∧ i ∉ coll.map (·.mod_id) ∧
        ¬ ∃ st, (i, st) ∈ mods ∧ st.manual))

/-! ## Deployment Classifier (deploy.py, `classify_file`)

String primitives: Python `str.lower` / `str.startswith` / tuple-style
string comparison are embedded as character-list functions (`strLower`,
`strStartsWith`, `strLt`) so that concrete inputs evaluate inside the
kernel; `pathSuffix` is `pathlib.Path.suffix` (the extension of the final
component including the dot, empty when the last dot is the first or last
character).  Lowercasing is ASCII, matching the repository's ASCII
file-name vocabulary.  A relative path is its list of segments
(`Path.parts`). -/

def lowerChar (c : Char) : Char :=
  if 'A' ≤ c ∧ c ≤ 'Z' then Char.ofNat (c.toNat + 32) else c

def strLower (s : String) : String := ⟨s.data.map lowerChar⟩

def strStartsWith (s pre : String) : Bool := pre.data.isPrefixOf s.data

def charListLt : List Char → List Char → Bool
  | [], [] => false
  | [], _ :: _ => true
  | _ :: _, [] => false
  | a :: as, b :: bs =>
    if a < b then true else if b < a then false else charListLt as bs

def strLt (s t : String) : Bool := charListLt s.data t.data

def lastDotIdxAux : List Char → Nat → Option Nat
  | [], _ => none
  | c :: cs, i =>
    match lastDotIdxAux cs (i + 1) with
    | some j => some j
    | none => if c = '.' then some i else none

/-- `pathlib.Path.suffix` on a file name (CPython: `i = name.rfind('.')`,
returning `name[i:]` when `0 < i < len(name) - 1`, else the empty
string). -/
def pathSuffix (name : String) : String :=
  match lastDotIdxAux name.data 0 with
  | some i => if 0 < i ∧ i < name.data.length - 1 then ⟨name.data.drop i⟩ else ""
  | none => ""

def BETHESDA_EXTENSIONS : List String := [".esm", ".esp", ".esl", ".ba2"]

def ASSET_DIRS : List String :=
  ["geometries", "textures", "meshes", "scripts", "sound", "materials",
   "interface", "video", "terrain", "strings", "music", "shadersfx", "vis",
   "seq", "lodsettings", "grass", "facegen", "dialogueviews", "source"]

def SKIP_PATTERNS : List String :=
  ["fomod", ".nexus-state.json", "load-order.txt", "plugins.txt",
   "__folder_managed_by_vortex"]

def SKIP_EXTENSIONS : List String :=
  [".txt", ".md", ".jpg", ".jpeg", ".png", ".gif", ".pdf", ".log"]

/-- Embedding of `classify_file` (deploy.py lines 140-203).  The
game-domain argument is accepted and, exactly as in the source, never
read.  The Python body indexes `lower_parts[0]` and is only called on
nonempty paths; the empty path yields `none` here (the Python call would
raise). -/
def classify_file (parts : List String) (game_domain : String) :
    Option (String × List String) :=
  if parts.isEmpty then none
  else
    let name := parts.getLastD ""
    let name_lower := strLower name
    let suffix_lower := strLower (pathSuffix name)
    let lower_parts := parts.map strLower
    if SKIP_PATTERNS.contains name_lower || strStartsWith name_lower "readme" then
      none
    else if SKIP_EXTENSIONS.contains suffix_lower &&
        !(BETHESDA_EXTENSIONS.contains suffix_lower) then
      none
    else if parts.any (fun p => SKIP_PATTERNS.contains (strLower p)) then
      none
    else if strStartsWith name_lower "sfse_" &&
        (suffix_lower == ".exe" || suffix_lower == ".dll") then
      some ("root", [name])
    else if lower_parts.contains "sfse" &&
        ((lower_parts.headD "" == "data" && lower_parts.indexOf "sfse" == 1) ||
          lower_parts.indexOf "sfse" == 0) then
      some ("data", parts.drop (lower_parts.indexOf "sfse"))
    else if lower_parts.headD "" == "data" && parts.length > 1 then
      some ("data", parts.drop 1)
    else if parts.length == 1 && BETHESDA_EXTENSIONS.contains suffix_lower then
      some ("data", [name])
    else if ASSET_DIRS.contains (lower_parts.headD "") then
      some ("data", parts)
    else
      match lower_parts.findIdx? (fun p => ASSET_DIRS.contains p) with
      | some i => some ("data", parts.drop i)
      | none =>
        if parts.length == 1 && suffix_lower == ".dll" then some ("root", [name])
        else if parts.length == 1 && suffix_lower == ".ini" then some ("root", [name])
        else some ("data", parts)

/-- The amended C7 routing property for a given path: a file whose name
matches the loader naming convention (`sfse_*.exe` / `sfse_*.dll`) is
routed to game-root flattened to its filename at any depth, and the
loader-plugin segment rule preserves the path from the segment onward only
when the segment is first, or second under a leading data-root segment. -/
def ClassifyLoaderRouting (parts : List String) (domain : String) : Prop :=
  ((strStartsWith (strLower (parts.getLastD "")) "sfse_" &&
      ((strLower (pathSuffix (parts.getLastD "")) == ".exe") ||
        (strLower (pathSuffix (parts.getLastD "")) == ".dll"))) = true →
    classify_file parts domain = some ("root", [parts.getLastD ""]))
  ∧ ((strStartsWith (strLower (parts.getLastD "")) "sfse_" &&
      ((strLower (pathSuffix (parts.getLastD "")) == ".exe") ||
        (strLower (pathSuffix (parts.getLastD "")) == ".dll"))) = false →
    ((parts.map strLower).headD "" = "sfse" →
      classify_file parts domain = some ("data", parts)) ∧
    ((parts.map strLower).headD "" = "data" →
      (parts.map strLower).indexOf "sfse" = 1 →
      "sfse" ∈ parts.map strLower →
      classify_file parts domain = some ("data", parts.drop 1)))

/-! ## Plugin-order merge (loot_sort.py, `merge_plugin_orders`)

A collection plugin entry contributes its `"filename"` string and
`"enabled"` flag (default `True`), modelled as a `String × Bool` pair.
Python's `if loot_sorted:` treats both `None` and the empty list as the
fallback case, mirrored by the `some (p :: ps)` pattern. -/

def merge_plugin_orders (collection_plugins : List (String × Bool))
    (loot_sorted : Option (List String)) : List String :=
  match loot_sorted with
  | some (p :: ps) =>
    let enabled := (collection_plugins.filter (fun q => q.2)).map
      (fun q => strLower q.1)
    (p :: ps).map (fun plugin =>
      (if enabled.contains (strLower plugin) then "*" else "") ++ plugin)
  | _ =>
    (collection_plugins.filter (fun q => !(q.1 == ""))).map
      (fun q => (if q.2 then "*" else "") ++ q.1)

/-- The collection-declared enabled flag of a plugin filename, looked up
case-insensitively in the declared list (default `true`, matching
`p.get("enabled", True)`). -/
def declaredFlag (collection_plugins : List (String × Bool)) (f : String) :
    Bool :=
  ((collection_plugins.find? (fun q => strLower q.1 == strLower f)).map
    (·.2)).getD true

/-! ## Deployment Executor (deploy.py, `deploy` / `undeploy`)

The filesystem is modelled as the set of regular files (destination path
mapped to the source path whose symlink/copy materialized it — `method`
does not affect the destination tree shape) plus the set of directories,
both as lists of absolute paths in segment form.  `Path.parent` is
`dropLast`, `Path.name` of a nonempty path is its last segment and `""`
for the root, matching pathlib. -/

abbrev FPath := List String

structure FS where
  files : List (FPath × FPath)
  dirs : List FPath
deriving DecidableEq, Repr

def fileExists (fs : FS) (p : FPath) : Bool := fs.files.any (fun e => e.1 == p)

def unlink (fs : FS) (p : FPath) : FS :=
  { fs with files := fs.files.filter (fun e => !(e.1 == p)) }

/-- `dest.parent.mkdir(parents=True, exist_ok=True)`: create the directory
and every missing ancestor (the root `[]` always exists and is not
tracked). -/
def mkdirParents (fs : FS) (dir : FPath) : FS :=
  { fs with dirs := fs.dirs ++
      dir.inits.filter (fun d => !d.isEmpty && !(fs.dirs.contains d)) }

def basename (p : FPath) : String := p.getLastD ""

def pathStr : FPath → String
  | [] => ""
  | [s] => s
  | s :: rest => s ++ "/" ++ pathStr rest

/-- Embedding of `_deploy_file` (deploy.py lines 250-263): ensure parent
directories, remove a pre-existing destination, then create the new entry
(symlink and copy agree on the destination tree shape). -/
def deployFile (fs : FS) (src dest : FPath) : FS :=
  let fs₁ := mkdirParents fs dest.dropLast
  let fs₂ := if fileExists fs₁ dest then unlink fs₁ dest else fs₁
  { fs₂ with files := fs₂.files ++ [(dest, src)] }

structure DeployedFile where
  src : FPath
  dest : FPath
  method : String
deriving DecidableEq, Repr

structure DeploymentPlan where
  game_root_files : List (FPath × FPath)
  data_files : List (FPath × FPath)
  skipped : List (FPath × String)
deriving DecidableEq, Repr

structure DeployResult where
  deployed : List DeployedFile
  skipped : List (String × String)
  conflicts : List String
  errors : List String
deriving DecidableEq, Repr

/-- One iteration of the game-root loop of `deploy` (deploy.py lines
277-286); the model has no OS errors, so the error branch is never
taken. -/
def rootStep (game_dir : FPath) (method : String) (dry_run : Bool)
    (acc : DeployResult × FS) (e : FPath × FPath) : DeployResult × FS :=
  let dest := game_dir ++ e.2
  let r := { acc.1 with deployed := acc.1.deployed ++ [⟨e.1, dest, method⟩] }
  if dry_run then (r, acc.2) else (r, deployFile acc.2 e.1 dest)

/-- One iteration of the `Data/` loop of `deploy` (deploy.py lines
289-307), carrying the `seen_dests` dict as an association list (assignment
replaces the entry for the destination). -/
def dataStep (game_dir : FPath) (method : String) (dry_run : Bool)
    (acc : (DeployResult × FS) × List (FPath × FPath)) (e : FPath × FPath) :
    (DeployResult × FS) × List (FPath × FPath) :=
  let dest := (game_dir ++ ["Data"]) ++ e.2
  let r₀ := acc.1.1
  let r₁ :=
    if (acc.2.map (·.1)).contains dest then
      { r₀ with conflicts := r₀.conflicts ++
          [pathStr e.2 ++ ": overwritten by " ++ basename e.1 ++ " (was " ++
            basename (((acc.2.find? (fun s => s.1 == dest)).map (·.2)).getD [])
              ++ ")"] }
    else r₀
  let seen := (acc.2.filter (fun s => !(s.1 == dest))) ++ [(dest, e.1)]
  let r₂ := { r₁ with deployed := r₁.deployed ++ [⟨e.1, dest, method⟩] }
  if dry_run then ((r₂, acc.1.2), seen)
  else ((r₂, deployFile acc.1.2 e.1 dest), seen)

/-- Embedding of `deploy` (deploy.py lines 266-309). -/
def deploy (plan : DeploymentPlan) (game_dir : FPath) (method : String)
    (dry_run : Bool) (fs : FS) : DeployResult × FS :=
  let start : DeployResult × FS := (⟨[], [], [], []⟩, fs)
  let afterRoot :=
    plan.game_root_files.foldl (rootStep game_dir method dry_run) start
  ((plan.data_files.foldl (dataStep game_dir method dry_run)
    (afterRoot, [])).1)

def isEmptyDir (fs : FS) (dir : FPath) : Bool :=
  !(fs.files.any (fun e => dir.isPrefixOf e.1 && !(e.1 == dir))) &&
  !(fs.dirs.any (fun d => dir.isPrefixOf d && !(d == dir)))

def rmdir (fs : FS) (dir : FPath) : FS :=
  { fs with dirs := fs.dirs.filter (fun d => !(d == dir)) }

/-- Embedding of `_cleanup_empty_parents` (deploy.py lines 328-338): climb
while the directory has a nonempty name other than `Data`/`data`, removing
it when empty; the implementation has no notion of the game root, only of
the data-tree directory name and the filesystem root.  The climb is
structural recursion over the reversed segment list (`Path.name` is the
head of the reversed path, `Path.parent` drops it). -/
def cleanupAux : FS → List String → FS
  | fs, [] => fs
  | fs, s :: rest =>
    if s == "Data" || s == "data" then fs
    else if isEmptyDir fs (s :: rest).reverse then
      cleanupAux (rmdir fs (s :: rest).reverse) rest
    else fs

def cleanupEmptyParents (fs : FS) (dir : FPath) : FS := cleanupAux fs dir.reverse

/-- Embedding of `undeploy` (deploy.py lines 312-325). -/
def undeploy (records : List DeployedFile) (fs : FS) : Nat × FS :=
  records.foldl (fun acc r =>
    if fileExists acc.2 r.dest then
      (acc.1 + 1, cleanupEmptyParents (unlink acc.2 r.dest) r.dest.dropLast)
    else acc) (0, fs)

def lookupFile (fs : FS) (p : FPath) : Option FPath :=
  (fs.files.find? (fun e => e.1 == p)).map (·.2)

/-- The amended C8 property: within one run, conflicts are recorded exactly
for collisions in the game-data partition (the conflict list is empty iff
the data-partition relative destinations are pairwise distinct); the run
never aborts (every planned entry yields a deployed record); and for any
destination occurring in the data partition the later source wins — the
final file content at that destination comes from the last data entry
mapping to it. -/
def DeployConflictSpec (plan : DeploymentPlan) (gd : FPath) (method : String)
    (fs : FS) (d : FPath) : Prop :=
  ((deploy plan gd method false fs).1.conflicts = [] ↔
    (plan.data_files.map (·.2)).Nodup)
  ∧ (deploy plan gd method false fs).1.deployed.length =
      plan.game_root_files.length + plan.data_files.length
  ∧ lookupFile (deploy plan gd method false fs).2 ((gd ++ ["Data"]) ++ d) =
      ((plan.data_files.filter (fun e => e.2 == d)).getLast?).map (·.1)

/-! ## Load Order Resolver (loadorder.py, `LoadOrderGenerator._sort_mods`)

Mods are `(mod_id, mod_name)` pairs (the only fields the sorter reads);
`manifest.mod_phases.get(mid, 0)` is a total function `Int → Int`;
`manifest.mod_rules` entries contribute their `type`, `source.modId` and
`target.modId`.  Python's `heapq` of `(phase, name.lower(), mod_id)`
tuples is a list popped at its lexicographic minimum (triples of distinct
mods are distinct, so the minimum is unique); `set` iteration order —
unspecified in Python — is fixed here as first-occurrence order of the
mod list. -/

structure Rule where
  type : String
  source : Option Int
  target : Option Int
deriving DecidableEq, Repr

/-- `edges[a].add(b)` together with the unconditional
`in_degree[target] += 1` of the rule loop (loadorder.py lines 123-134):
the edge set deduplicates, the in-degree counter does not. -/
def addRuleEdge (st : List (Int × Int) × (Int → Int)) (a b : Int) :
    List (Int × Int) × (Int → Int) :=
  (if st.1.contains (a, b) then st.1 else st.1 ++ [(a, b)],
    fun v => if v = b then st.2 v + 1 else st.2 v)

/-- One iteration of the `modRules` loop (loadorder.py lines 110-134). -/
def applyRule (ids : List Int) (st : List (Int × Int) × (Int → Int))
    (r : Rule) : List (Int × Int) × (Int → Int) :=
  match r.source, r.target with
  | some s, some t =>
    if ids.contains s && ids.contains t then
      if r.type == "before" then addRuleEdge st s t
      else if r.type == "after" then addRuleEdge st t s
      else if r.type == "requires" then addRuleEdge st t s
      else st
    else st
  | _, _ => st

/-- A `modRequirements` edge insertion (loadorder.py lines 144-146),
guarded so edge set and in-degree stay in step. -/
def addReqEdge (st : List (Int × Int) × (Int → Int)) (req mid : Int) :
    List (Int × Int) × (Int → Int) :=
  if st.1.contains (req, mid) then st
  else (st.1 ++ [(req, mid)], fun v => if v = mid then st.2 v + 1 else st.2 v)

/-- The `modRequirements` loop (loadorder.py lines 137-146). -/
def applyReqs (ids : List Int) (st : List (Int × Int) × (Int → Int))
    (reqs : List (Int × List Int)) : List (Int × Int) × (Int → Int) :=
  reqs.foldl (fun st pr =>
    if ids.contains pr.1 then
      pr.2.foldl (fun st req =>
        if ids.contains req then addReqEdge st req pr.1 else st) st
    else st) st

/-- Edge list and in-degree map built by `_sort_mods` before the Kahn
loop; phases play no part in it. -/
def buildGraph (rules : List Rule) (reqs : List (Int × List Int))
    (ids : List Int) : List (Int × Int) × (Int → Int) :=
  applyReqs ids (rules.foldl (applyRule ids) ([], fun _ => 0)) reqs

def insertBy {α : Type} (lt : α → α → Bool) (a : α) : List α → List α
  | [] => [a]
  | b :: bs => if lt a b then a :: b :: bs else b :: insertBy lt a bs

/-- Insertion sort by a strict comparison, modelling Python's stable
`sorted`. -/
def sortBy {α : Type} (lt : α → α → Bool) (l : List α) : List α :=
  l.foldl (fun acc x => insertBy lt x acc) []

/-- `self.mods.get(mod_id, {}).get("mod_name", "")` where `self.mods` is a
dict comprehension over the mod list (later duplicates win). -/
def nameOf (mods : List (Int × String)) (mid : Int) : String :=
  ((mods.reverse).lookup mid).getD ""

/-- A heap entry `(phase, name.lower(), mod_id)`. -/
def mkTrip (phases : Int → Int) (mods : List (Int × String)) (mid : Int) :
    Int × String × Int :=
  (phases mid, strLower (nameOf mods mid), mid)

/-- Lexicographic comparison of heap entries, as Python tuple `<`. -/
def tripLt (x y : Int × String × Int) : Bool :=
  if x.1 < y.1 then true
  else if y.1 < x.1 then false
  else if strLt x.2.1 y.2.1 then true
  else if strLt y.2.1 x.2.1 then false
  else decide (x.2.2 < y.2.2)

/-- `heapq.heappop`: remove the lexicographically least entry. -/
def popMin : List (Int × String × Int) →
    Option ((Int × String × Int) × List (Int × String × Int))
  | [] => none
  | t :: ts =>
    match popMin ts with
    | none => some (t, [])
    | some (mn, rest) =>
      if tripLt mn t then some (mn, t :: rest) else some (t, ts)

/-- `sorted(edges.get(mod_id, set()))`. -/
def sortedNeighbors (edges : List (Int × Int)) (u : Int) : List Int :=
  sortBy (fun a b => decide (a < b)) ((edges.filter (fun e => e.1 == u)).map (·.2))

/-- The inner `for neighbor in sorted(...)` loop of the Kahn iteration
(loadorder.py lines 166-171): decrement each successor, pushing those that
reach zero in-degree. -/
def relaxNeighbors (phases : Int → Int) (mods : List (Int × String)) :
    List Int → (Int → Int) → List (Int × String × Int) →
      (Int → Int) × List (Int × String × Int)
  | [], d, q => (d, q)
  | n :: rest, d, q =>
    let d' := fun v => if v = n then d v - 1 else d v
    let q' := if d' n = 0 then q ++ [mkTrip phases mods n] else q
    relaxNeighbors phases mods rest d' q'

/-- The `while queue:` loop of `_sort_mods` (loadorder.py lines 161-171),
with explicit fuel; `_sort_mods` supplies fuel `|all_mod_ids|`, which the
invariants show is never exhausted before the queue empties. -/
def kahnLoop (edges : List (Int × Int)) (phases : Int → Int)
    (mods : List (Int × String)) :
    Nat → List (Int × String × Int) → (Int → Int) → List Int →
      List Int × List (Int × String × Int) × (Int → Int)
  | 0, q, d, emitted => (emitted, q, d)
  | Nat.succ fuel, q, d, emitted =>
    match popMin q with
    | none => (emitted, q, d)
    | some (t, rest) =>
      let st := relaxNeighbors phases mods (sortedNeighbors edges t.2.2) d rest
      kahnLoop edges phases mods fuel st.2 st.1 (emitted ++ [t.2.2])

/-- The cycle-fallback sort key `(phase, name.lower())` (loadorder.py
lines 176-182). -/
def fallbackLt (phases : Int → Int) (mods : List (Int × String))
    (a b : Int) : Bool :=
  if phases a < phases b then true
  else if phases b < phases a then false
  else strLt (strLower (nameOf mods a)) (strLower (nameOf mods b))

/-- Embedding of `LoadOrderGenerator._sort_mods` (loadorder.py lines
77-185).  The phase-grouping loop of lines 94-107 builds `phase_groups`
and then does nothing (`pass`), so it contributes nothing here. -/
def sort_mods (rules : List Rule) (reqs : List (Int × List Int))
    (mods : List (Int × String)) (phases : Int → Int) : List Int :=
  let all_mod_ids := (mods.map (·.1)).dedup
  let st := buildGraph rules reqs all_mod_ids
  let q0 := (all_mod_ids.filter (fun mid => st.2 mid == 0)).map
    (mkTrip phases mods)
  let res := kahnLoop st.1 phases mods all_mod_ids.length q0 st.2 []
  if res.1.length < all_mod_ids.length then
    res.1 ++ sortBy (fallbackLt phases mods)
      (all_mod_ids.filter (fun mid => !(res.1.contains mid)))
  else res.1

/-- Acyclicity of the built edge list: no node reaches itself through a
nonempty edge path. -/
def Acyclic (edges : List (Int × Int)) : Prop :=
  ∀ v : Int, ¬ Relation.TransGen (fun a b => (a, b) ∈ edges) v v

/-- Position of a mod id in the resolver output. -/
def idxOf : List Int → Int → Nat
  | [], _ => 0
  | x :: xs, v => if x = v then 0 else idxOf xs v + 1

/-- Number of distinct in-edges of `v` (the edge list is kept
duplicate-free by construction). -/
def inCnt (edges : List (Int × Int)) (v : Int) : Nat :=
  (edges.filter (fun e => e.2 == v)).length

/-- Number of emitted nodes that are edge-sources of `v`. -/
def emitCnt (edges : List (Int × Int)) (E : List Int) (v : Int) : Nat :=
  (E.filter (fun u => edges.contains (u, v))).length

/-- Invariant of the edge-construction phase: the collected edge list is
duplicate-free, all endpoints are active mod ids, and the accumulated
in-degree of every node is at least its distinct in-edge count (rules may
overshoot the counter, never undershoot). -/
def GraphInv (ids : List Int) (st : List (Int × Int) × (Int → Int)) : Prop :=
  st.1.Nodup ∧ (∀ e ∈ st.1, e.1 ∈ ids ∧ e.2 ∈ ids) ∧
    ∀ v : Int, (inCnt st.1 v : Int) ≤ st.2 v

/-- Invariant of the Kahn loop state: emitted and queued ids are distinct
and drawn from the active set, the in-degree map counts exactly the
not-yet-emitted distinct in-edges (relative to the possibly inflated
initial counter), queued and emitted nodes have counter zero, and every
other active node has a strictly positive counter. -/
def KahnInv (edges : List (Int × Int)) (indeg0 : Int → Int) (ids : List Int)
    (q : List (Int × String × Int)) (d : Int → Int) (E : List Int) : Prop :=
  (E ++ q.map (·.2.2)).Nodup ∧
  (∀ m ∈ E, m ∈ ids) ∧
  (∀ t ∈ q, t.2.2 ∈ ids) ∧
  (∀ v : Int, d v = indeg0 v - (emitCnt edges E v : Int)) ∧
  (∀ t ∈ q, d t.2.2 = 0) ∧
  (∀ m ∈ E, d m = 0) ∧
  (∀ v ∈ ids, v ∉ E → v ∉ q.map (·.2.2) → 0 < d v)

/-- The emitted prefix respects every edge into it. -/
def OrdInv (edges : List (Int × Int)) (E : List Int) : Prop :=
  ∀ a b : Int, (a, b) ∈ edges → b ∈ E → a ∈ E ∧ idxOf E a < idxOf E b

/-- The list emitted by the Kahn loop inside `sort_mods`, before the
cycle fallback. -/
def kahnEmitted (rules : List Rule) (reqs : List (Int × List Int))
    (mods : List (Int × String)) (phases : Int → Int) : List Int :=
  (kahnLoop (buildGraph rules reqs ((mods.map (·.1)).dedup)).1 phases mods
    ((mods.map (·.1)).dedup).length
    ((((mods.map (·.1)).dedup).filter (fun mid =>
      (buildGraph rules reqs ((mods.map (·.1)).dedup)).2 mid == 0)).map
        (mkTrip phases mods))
    (buildGraph rules reqs ((mods.map (·.1)).dedup)).2 []).1

/-- The final queue of the Kahn loop inside `sort_mods`. -/
def kahnFinalQ (rules : List Rule) (reqs : List (Int × List Int))
    (mods : List (Int × String)) (phases : Int → Int) :
    List (Int × String × Int) :=
  (kahnLoop (buildGraph rules reqs ((mods.map (·.1)).dedup)).1 phases mods
    ((mods.map (·.1)).dedup).length
    ((((mods.map (·.1)).dedup).filter (fun mid =>
      (buildGraph rules reqs ((mods.map (·.1)).dedup)).2 mid == 0)).map
        (mkTrip phases mods))
    (buildGraph rules reqs ((mods.map (·.1)).dedup)).2 []).2.1

theorem diffBuckets_fst (mods : List (Int × ModSt)) (coll : List CMod) :
    (diffBuckets mods coll).1 =
      coll.filter (fun m => (mods.lookup m.mod_id).isNone) := by
  induction coll with
  | nil => rfl
  | cons m rest ih =>
    simp only [diffBuckets, List.filter_cons]
    cases h : mods.lookup m.mod_id with
    | none => simp [h, ih]
    | some inst =>
      by_cases hf : inst.file_id ≠ m.file_id <;> simp [h, hf, ih]

theorem diffBuckets_snd (mods : List (Int × ModSt)) (coll : List CMod) :
    (diffBuckets mods coll).2.1 =
      coll.filter (fun m =>
        match mods.lookup m.mod_id with
        | none => false
        | some inst => inst.file_id ≠ m.file_id) := by
  induction coll with
  | nil => rfl
  | cons m rest ih =>
    simp only [diffBuckets, List.filter_cons]
    cases h : mods.lookup m.mod_id with
    | none => simp [h, ih]
    | some inst =>
      by_cases hf : inst.file_id ≠ m.file_id <;> simp [h, hf, ih]

theorem diffBuckets_thd (mods : List (Int × ModSt)) (coll : List CMod) :
    (diffBuckets mods coll).2.2 =
      coll.filter (fun m =>
        match mods.lookup m.mod_id with
        | none => false
        | some inst => inst.file_id = m.file_id) := by
  induction coll with
  | nil => rfl
  | cons m rest ih =>
    simp only [diffBuckets, List.filter_cons]
    cases h : mods.lookup m.mod_id with
    | none => simp [h, ih]
    | some inst =>
      by_cases hf : inst.file_id ≠ m.file_id <;>
        · simp [h, hf, ih, ne_comm]
          try simp_all

theorem contains_false_iff {α : Type} [BEq α] [LawfulBEq α]
    (l : List α) (a : α) :
    (l.contains a = false) ↔ a ∉ l := by
  constructor
  · intro h hmem
    have hc : l.elem a = true := List.elem_iff.2 hmem
    have h' : l.elem a = false := h
    rw [h'] at hc
    exact Bool.false_ne_true hc
  · intro h
    cases hb : l.contains a with
    | false => rfl
    | true => exact absurd (List.elem_iff.1 hb) h

theorem compare_eq (mods : List (Int × ModSt)) (coll : List CMod) :
    compare_with_collection mods coll =
      ((diffBuckets mods coll).1, (diffBuckets mods coll).2.1,
        (diffBuckets mods coll).2.2,
        (mods.map (·.1)).filter
          (fun mid => !((coll.map (·.mod_id)).contains mid) &&
            !(((mods.filter (fun p => p.2.manual)).map (·.1)).contains mid))) := by
  unfold compare_with_collection
  rcases diffBuckets mods coll with ⟨ti, tu, ut⟩
  rfl

theorem mem_to_install_iff (mods : List (Int × ModSt)) (coll : List CMod)
    (m : CMod) :
    m ∈ (compare_with_collection mods coll).1 ↔
      m ∈ coll ∧ mods.lookup m.mod_id = none := by
  rw [compare_eq, diffBuckets_fst]
  simp [List.mem_filter, Option.isNone_iff_eq_none]

theorem mem_to_update_iff (mods : List (Int × ModSt)) (coll : List CMod)
    (m : CMod) :
    m ∈ (compare_with_collection mods coll).2.1 ↔
      m ∈ coll ∧ ∃ st, mods.lookup m.mod_id = some st ∧
        st.file_id ≠ m.file_id := by
  rw [compare_eq, diffBuckets_snd]
  simp only [List.mem_filter]
  constructor
  · rintro ⟨hm, hp⟩
    refine ⟨hm, ?_⟩
    cases h : mods.lookup m.mod_id with
    | none => rw [h] at hp; simp at hp
    | some st => exact ⟨st, rfl, by rw [h] at hp; simpa using hp⟩
  · rintro ⟨hm, st, hst, hne⟩
    exact ⟨hm, by rw [hst]; simpa using hne⟩

theorem mem_up_to_date_iff (mods : List (Int × ModSt)) (coll : List CMod)
    (m : CMod) :
    m ∈ (compare_with_collection mods coll).2.2.1 ↔
      m ∈ coll ∧ ∃ st, mods.lookup m.mod_id = some st ∧
        st.file_id = m.file_id := by
  rw [compare_eq, diffBuckets_thd]
  simp only [List.mem_filter]
  constructor
  · rintro ⟨hm, hp⟩
    refine ⟨hm, ?_⟩
    cases h : mods.lookup m.mod_id with
    | none => rw [h] at hp; simp at hp
    | some st => exact ⟨st, rfl, by rw [h] at hp; simpa using hp⟩
  · rintro ⟨hm, st, hst, heq⟩
    exact ⟨hm, by rw [hst]; simpa using heq⟩

theorem mem_to_remove_iff (mods : List (Int × ModSt)) (coll : List CMod)
    (mid : Int) :
    mid ∈ (compare_with_collection mods coll).2.2.2 ↔
      mid ∈ mods.map (·.1) ∧ mid ∉ coll.map (·.mod_id) ∧
        ¬ ∃ st, (mid, st) ∈ mods ∧ st.manual := by
  rw [compare_eq]
  simp only [List.mem_filter, Bool.and_eq_true, Bool.not_eq_true',
    contains_false_iff]
  constructor
  · rintro ⟨hin, hc, hman⟩
    refine ⟨hin, hc, ?_⟩
    rintro ⟨st, hst, hstm⟩
    exact hman (List.mem_map.2 ⟨(mid, st), List.mem_filter.2 ⟨hst, hstm⟩, rfl⟩)
  · rintro ⟨hin, hc, hman⟩
    refine ⟨hin, hc, ?_⟩
    intro hmem
    rcases List.mem_map.1 hmem with ⟨q, hq, hq1⟩
    rcases List.mem_filter.1 hq with ⟨hqm, hqman⟩
    obtain ⟨q1, q2⟩ := q
    cases hq1
    exact hman ⟨q2, hqm, hqman⟩

/-- C5: the Diff Engine places each mod of the latest list in exactly one
bucket: no installed counterpart means `to_install`, a differing `file_id`
means `to_update`, otherwise `up_to_date` (version strings are never
consulted); and `to_remove` is exactly the set of installed mod ids absent
from the latest list, excluding manual mods. -/
theorem compare_bucket_rules (mods : List (Int × ModSt)) (coll : List CMod)
    (m : CMod) (mid : Int) :
    (m ∈ (compare_with_collection mods coll).1 ↔
      m ∈ coll ∧ mods.lookup m.mod_id = none)
    ∧ (m ∈ (compare_with_collection mods coll).2.1 ↔
      m ∈ coll ∧ ∃ st, mods.lookup m.mod_id = some st ∧ st.file_id ≠ m.file_id)
    ∧ (m ∈ (compare_with_collection mods coll).2.2.1 ↔
      m ∈ coll ∧ ∃ st, mods.lookup m.mod_id = some st ∧ st.file_id = m.file_id)
    ∧ (mid ∈ (compare_with_collection mods coll).2.2.2 ↔
      mid ∈ mods.map (·.1) ∧ mid ∉ coll.map (·.mod_id) ∧
        ¬ ∃ st, (mid, st) ∈ mods ∧ st.manual) :=
  ⟨mem_to_install_iff mods coll m, mem_to_update_iff mods coll m,
    mem_up_to_date_iff mods coll m, mem_to_remove_iff mods coll mid⟩

/-- C1 counterexample: with one installed manual mod (id 1) and an empty
latest list, all four buckets are empty, so mod id 1 — present in the
installed input — is missing from every bucket; the union of the buckets
does not cover `installed ∪ latest`. -/
theorem compare_manual_gap_cex :
    ¬ DiffCoversAllIds [(1, ⟨1, 5, true⟩)] [] :=
  fun h => absurd (h 1) (by decide)

/-- C1, amended: assuming the data-model invariant that mod ids are unique
within the latest list, the four buckets are pairwise disjoint and cover
every input mod id except manual installed mods absent from the latest
list. -/
theorem compare_partition_amended (mods : List (Int × ModSt))
    (coll : List CMod) (hcoll : (coll.map (·.mod_id)).Nodup) :
    DiffPartitionSpec mods coll := by
  have uniq : ∀ m ∈ coll, ∀ m' ∈ coll, m.mod_id = m'.mod_id → m = m' :=
    fun m hm m' hm' h => List.inj_on_of_nodup_map hcoll hm hm' h
  have hti : ∀ i : Int,
      i ∈ (compare_with_collection mods coll).1.map (·.mod_id) ↔
        (∃ m ∈ coll, m.mod_id = i) ∧ mods.lookup i = none := by
    intro i
    constructor
    · intro hm
      rcases List.mem_map.1 hm with ⟨m, hmem, hid⟩
      rcases (mem_to_install_iff mods coll m).1 hmem with ⟨h1, h2⟩
      exact ⟨⟨m, h1, hid⟩, by rw [← hid]; exact h2⟩
    · rintro ⟨⟨m, hm, hid⟩, h2⟩
      exact List.mem_map.2
        ⟨m, (mem_to_install_iff mods coll m).2 ⟨hm, by rw [hid]; exact h2⟩, hid⟩
  have htu : ∀ i : Int,
      i ∈ (compare_with_collection mods coll).2.1.map (·.mod_id) ↔
        ∃ m ∈ coll, m.mod_id = i ∧
          ∃ st, mods.lookup i = some st ∧ st.file_id ≠ m.file_id := by
    intro i
    constructor
    · intro hm
      rcases List.mem_map.1 hm with ⟨m, hmem, hid⟩
      rcases (mem_to_update_iff mods coll m).1 hmem with ⟨h1, st, hst, hne⟩
      exact ⟨m, h1, hid, st, by rw [← hid]; exact hst, hne⟩
    · rintro ⟨m, hm, hid, st, hst, hne⟩
      exact List.mem_map.2
        ⟨m, (mem_to_update_iff mods coll m).2
          ⟨hm, st, by rw [hid]; exact hst, hne⟩, hid⟩
  have hut : ∀ i : Int,
      i ∈ (compare_with_collection mods coll).2.2.1.map (·.mod_id) ↔
        ∃ m ∈ coll, m.mod_id = i ∧
          ∃ st, mods.lookup i = some st ∧ st.file_id = m.file_id := by
    intro i
    constructor
    · intro hm
      rcases List.mem_map.1 hm with ⟨m, hmem, hid⟩
      rcases (mem_up_to_date_iff mods coll m).1 hmem with ⟨h1, st, hst, heq⟩
      exact ⟨m, h1, hid, st, by rw [← hid]; exact hst, heq⟩
    · rintro ⟨m, hm, hid, st, hst, heq⟩
      exact List.mem_map.2
        ⟨m, (mem_up_to_date_iff mods coll m).2
          ⟨hm, st, by rw [hid]; exact hst, heq⟩, hid⟩
  refine ⟨?_, ?_, ?_, ?_, ?_, ?_, ?_⟩
  · intro i h1 h2
    rcases (hti i).1 h1 with ⟨_, hnone⟩
    rcases (htu i).1 h2 with ⟨m, _, _, st, hst, _⟩
    rw [hnone] at hst
    exact Option.noConfusion hst
  · intro i h1 h2
    rcases (hti i).1 h1 with ⟨_, hnone⟩
    rcases (hut i).1 h2 with ⟨m, _, _, st, hst, _⟩
    rw [hnone] at hst
    exact Option.noConfusion hst
  · intro i h1 h2
    rcases (hti i).1 h1 with ⟨⟨m, hm, hid⟩, _⟩
    rcases (mem_to_remove_iff mods coll i).1 h2 with ⟨_, hnc, _⟩
    exact hnc (List.mem_map.2 ⟨m, hm, hid⟩)
  · intro i h1 h2
    rcases (htu i).1 h1 with ⟨m, hm, hid, st, hst, hne⟩
    rcases (hut i).1 h2 with ⟨m', hm', hid', st', hst', heq⟩
    have hmm : m = m' := uniq m hm m' hm' (hid.trans hid'.symm)
    rw [hst] at hst'
    cases hst'
    exact hne (by rw [heq, hmm])
  · intro i h1 h2
    rcases (htu i).1 h1 with ⟨m, hm, hid, _⟩
    rcases (mem_to_remove_iff mods coll i).1 h2 with ⟨_, hnc, _⟩
    exact hnc (List.mem_map.2 ⟨m, hm, hid⟩)
  · intro i h1 h2
    rcases (hut i).1 h1 with ⟨m, hm, hid, _⟩
    rcases (mem_to_remove_iff mods coll i).1 h2 with ⟨_, hnc, _⟩
    exact hnc (List.mem_map.2 ⟨m, hm, hid⟩)
  · intro i
    constructor
    · rintro (h | h | h | h)
      · rcases (hti i).1 h with ⟨⟨m, hm, hid⟩, _⟩
        exact Or.inl (List.mem_map.2 ⟨m, hm, hid⟩)
      · rcases (htu i).1 h with ⟨m, hm, hid, _⟩
        exact Or.inl (List.mem_map.2 ⟨m, hm, hid⟩)
      · rcases (hut i).1 h with ⟨m, hm, hid, _⟩
        exact Or.inl (List.mem_map.2 ⟨m, hm, hid⟩)
      · rcases (mem_to_remove_iff mods coll i).1 h with ⟨h1, h2, h3⟩
        exact Or.inr ⟨h1, h2, h3⟩
    · rintro (h | ⟨h1, h2, h3⟩)
      · rcases List.mem_map.1 h with ⟨m, hm, hid⟩
        cases hlk : mods.lookup i with
        | none => exact Or.inl ((hti i).2 ⟨⟨m, hm, hid⟩, hlk⟩)
        | some st =>
          by_cases hfe : st.file_id = m.file_id
          · exact Or.inr (Or.inr (Or.inl ((hut i).2 ⟨m, hm, hid, st, hlk, hfe⟩)))
          · exact Or.inr (Or.inl ((htu i).2 ⟨m, hm, hid, st, hlk, hfe⟩))
      · exact Or.inr (Or.inr (Or.inr
          ((mem_to_remove_iff mods coll i).2 ⟨h1, h2, h3⟩)))

/-- Witness for `compare_partition_amended` at a concrete instance:
installed mods 1 (file 10), 2 (manual, file 20), 3 (file 30); latest
collection mods 1 (file 10), 3 (file 31), 4 (file 40). -/
theorem compare_partition_amended_witness :
    ((([⟨1, 10⟩, ⟨3, 31⟩, ⟨4, 40⟩] : List CMod).map (·.mod_id)).Nodup) ∧
    DiffPartitionSpec
      [(1, ⟨1, 10, false⟩), (2, ⟨2, 20, true⟩), (3, ⟨3, 30, false⟩)]
      [⟨1, 10⟩, ⟨3, 31⟩, ⟨4, 40⟩] :=
  ⟨by decide, compare_partition_amended
    [(1, ⟨1, 10, false⟩), (2, ⟨2, 20, true⟩), (3, ⟨3, 30, false⟩)]
    [⟨1, 10⟩, ⟨3, 31⟩, ⟨4, 40⟩] (by decide)⟩

/-- C10: the classifier's result is independent of the game-domain
identifier: `classify_file` never reads its second argument, so any two
domains give identical results on every path. -/
theorem classify_domain_independent (parts : List String) (d₁ d₂ : String) :
    classify_file parts d₁ = classify_file parts d₂ := rfl

/-- C7 counterexample: the path `a/sfse/plugins/x.dll` contains the known
loader-plugin subdirectory segment (`sfse`) at depth 1 under a non-data
root segment and is not skipped, yet the classifier falls through to the
generic fallback and routes it to game-data with the full path — not with
the path from the `sfse` segment onward as the claim states. -/
theorem classify_sfse_depth_cex :
    classify_file ["a", "sfse", "plugins", "x.dll"] "starfield" =
      some ("data", ["a", "sfse", "plugins", "x.dll"]) ∧
    (some ("data", ["a", "sfse", "plugins", "x.dll"])
        : Option (String × List String)) ≠
      some ("data", ["sfse", "plugins", "x.dll"]) := by decide

/-- C7, amended: for every nonempty staged path that the skip rules let
through, the loader-file name rule routes to game-root (flattened) at any
depth, and the loader-plugin-segment rule routes to game-data preserving
the path from the segment onward exactly when that segment is the first
segment, or the second one under a leading data-root segment (deeper
occurrences fall through to the later classification rules). -/
theorem classify_sfse_routing_amended (parts : List String) (domain : String)
    (h0 : parts ≠ [])
    (h1 : SKIP_PATTERNS.contains (strLower (parts.getLastD "")) = false)
    (h2 : strStartsWith (strLower (parts.getLastD "")) "readme" = false)
    (h3 : (SKIP_EXTENSIONS.contains (strLower (pathSuffix (parts.getLastD ""))) &&
      !(BETHESDA_EXTENSIONS.contains
          (strLower (pathSuffix (parts.getLastD ""))))) = false)
    (h4 : parts.any (fun p => SKIP_PATTERNS.contains (strLower p)) = false) :
    ClassifyLoaderRouting parts domain := by
  have hne : parts.isEmpty = false := by
    cases parts with
    | nil => exact absurd rfl h0
    | cons p rest => rfl
  unfold ClassifyLoaderRouting
  simp only [List.getLastD_eq_getLast?] at h1 h2 h3 ⊢
  simp at h1 h3 h4
  constructor
  · intro hname
    simp at hname
    simp [classify_file, hne, h1, h2, h3, h4, hname]
    exact ⟨h3, h4⟩
  · intro hname
    simp at hname
    constructor
    · intro hhead
      cases parts with
      | nil => exact absurd rfl h0
      | cons p rest =>
        have hp : strLower p = "sfse" := by simpa using hhead
        simp [classify_file, hne, h1, h2, h3, h4, hname, hp]
        refine ⟨h3, ⟨?_, fun x hx => h4 x (List.mem_cons_of_mem p hx)⟩, hname⟩
        have hps := h4 p (List.mem_cons_self p rest)
        rwa [hp] at hps
    · intro hhead hidx hmem
      cases parts with
      | nil => exact absurd rfl h0
      | cons p rest =>
        have hp : strLower p = "data" := by simpa using hhead
        have hmc : "sfse" = strLower p ∨ "sfse" ∈ List.map strLower rest := by
          have hmap : List.map strLower (p :: rest) =
              strLower p :: List.map strLower rest := rfl
          rw [hmap] at hmem
          exact List.mem_cons.1 hmem
        have hmem' : "sfse" ∈ List.map strLower rest := by
          rcases hmc with h | h
          · rw [hp] at h; exact absurd h (by decide)
          · exact h
        have hidx' : List.indexOf "sfse" (List.map strLower rest) = 0 := by
          have hcons : List.indexOf "sfse" (List.map strLower (p :: rest)) =
              List.indexOf "sfse" (List.map strLower rest) + 1 := by
            show List.indexOf "sfse" (strLower p :: List.map strLower rest) = _
            rw [hp]
            simp [List.indexOf_cons]
          rw [hcons] at hidx
          omega
        simp [classify_file, hne, h1, h2, h3, h4, hname, hp, hmem', hidx']
        refine ⟨h3, ⟨?_, fun x hx => h4 x (List.mem_cons_of_mem p hx)⟩, hname⟩
        have hps := h4 p (List.mem_cons_self p rest)
        rwa [hp] at hps

/-- Witness for `classify_sfse_routing_amended` at the concrete staged path
`Data/SFSE/Plugins/y.dll`. -/
theorem classify_sfse_routing_amended_witness :
    ((["Data", "SFSE", "Plugins", "y.dll"] : List String) ≠ [] ∧
      SKIP_PATTERNS.contains
        (strLower ((["Data", "SFSE", "Plugins", "y.dll"]
          : List String).getLastD "")) = false ∧
      strStartsWith
        (strLower ((["Data", "SFSE", "Plugins", "y.dll"]
          : List String).getLastD "")) "readme" = false ∧
      (SKIP_EXTENSIONS.contains
          (strLower (pathSuffix ((["Data", "SFSE", "Plugins", "y.dll"]
            : List String).getLastD ""))) &&
        !(BETHESDA_EXTENSIONS.contains
          (strLower (pathSuffix ((["Data", "SFSE", "Plugins", "y.dll"]
            : List String).getLastD ""))))) = false ∧
      (["Data", "SFSE", "Plugins", "y.dll"] : List String).any
        (fun p => SKIP_PATTERNS.contains (strLower p)) = false) ∧
    ClassifyLoaderRouting ["Data", "SFSE", "Plugins", "y.dll"] "starfield" :=
  ⟨⟨by decide, by decide, by decide, by decide, by decide⟩,
    classify_sfse_routing_amended ["Data", "SFSE", "Plugins", "y.dll"]
      "starfield" (by decide) (by decide) (by decide) (by decide) (by decide)⟩

/-- C9: when the external sort result is a permutation of the declared
plugin filenames, the merge returns exactly those plugins in the external
order — none dropped, none added — each marked enabled or disabled by its
collection-declared flag; when the external sorter produced no result, the
output is the declared list in declared order with declared flags. -/
theorem merge_plugin_orders_spec (cps : List (String × Bool))
    (loot : List String)
    (hnd : (cps.map (fun q => strLower q.1)).Nodup)
    (hne : ∀ q ∈ cps, q.1 ≠ "")
    (hperm : loot.Perm (cps.map Prod.fst)) :
    merge_plugin_orders cps (some loot) =
      loot.map (fun f => (if declaredFlag cps f then "*" else "") ++ f)
    ∧ merge_plugin_orders cps none =
      cps.map (fun q => (if q.2 then "*" else "") ++ q.1) := by
  have uniq : ∀ q ∈ cps, ∀ q' ∈ cps, strLower q.1 = strLower q'.1 → q = q' :=
    fun q hq q' hq' h => List.inj_on_of_nodup_map hnd hq hq' h
  have flag_eq : ∀ f ∈ loot,
      ((cps.filter (fun q => q.2)).map (fun q => strLower q.1)).contains
        (strLower f) = declaredFlag cps f := by
    intro f hf
    have hf' : f ∈ cps.map Prod.fst := hperm.mem_iff.1 hf
    rcases List.mem_map.1 hf' with ⟨q₀, hq₀, hq₀f⟩
    have hpred : (fun q => strLower q.1 == strLower f) q₀ = true := by
      simp [hq₀f]
    have hfind : cps.find? (fun q => strLower q.1 == strLower f) = some q₀ := by
      cases hfd : cps.find? (fun q => strLower q.1 == strLower f) with
      | none =>
        exact absurd hpred (by simpa using List.find?_eq_none.1 hfd q₀ hq₀)
      | some q₁ =>
        have hq₁ := List.find?_some hfd
        have hq₁m := List.mem_of_find?_eq_some hfd
        have : q₁ = q₀ := by
          apply uniq q₁ hq₁m q₀ hq₀
          have := of_decide_eq_true (by simpa using hq₁)
          rw [this, hq₀f]
        rw [this]
    have hflag : declaredFlag cps f = q₀.2 := by
      simp [declaredFlag, hfind]
    rw [hflag]
    cases hb : q₀.2 with
    | true =>
      have : strLower q₀.1 ∈ (cps.filter (fun q => q.2)).map
          (fun q => strLower q.1) :=
        List.mem_map.2 ⟨q₀, List.mem_filter.2 ⟨hq₀, hb⟩, rfl⟩
      rw [← hq₀f]
      exact List.elem_iff.2 this
    | false =>
      cases hc : ((cps.filter (fun q => q.2)).map
          (fun q => strLower q.1)).contains (strLower f) with
      | false => rfl
      | true =>
        rcases List.mem_map.1 (List.elem_iff.1 hc) with ⟨q₁, hq₁, hq₁f⟩
        rcases List.mem_filter.1 hq₁ with ⟨hq₁m, hq₁b⟩
        have : q₁ = q₀ := uniq q₁ hq₁m q₀ hq₀ (by rw [hq₁f, hq₀f])
        rw [this] at hq₁b
        rw [hb] at hq₁b
        exact absurd hq₁b Bool.false_ne_true
  constructor
  · cases hl : loot with
    | nil =>
      have : cps.map Prod.fst = [] := List.Perm.eq_nil (hl ▸ hperm).symm
      have hcps : cps = [] := List.map_eq_nil_iff.1 this
      rw [hcps]
      rfl
    | cons p ps =>
      have hstep : merge_plugin_orders cps (some (p :: ps)) =
          (p :: ps).map (fun plugin =>
            (if ((cps.filter (fun q => q.2)).map
                (fun q => strLower q.1)).contains (strLower plugin)
              then "*" else "") ++ plugin) := rfl
      rw [hstep]
      apply List.map_congr_left
      intro f hf
      rw [flag_eq f (hl ▸ hf)]
  · have hstep : merge_plugin_orders cps none =
        (cps.filter (fun q => !(q.1 == ""))).map
          (fun q => (if q.2 then "*" else "") ++ q.1) := rfl
    rw [hstep]
    have : cps.filter (fun q => !(q.1 == "")) = cps := by
      apply List.filter_eq_self.2
      intro q hq
      simpa using hne q hq
    rw [this]

/-- Witness for `merge_plugin_orders_spec`: declared plugins
`B.esp` (enabled) and `a.esp` (disabled), external result
`[a.esp, B.esp]`. -/
theorem merge_plugin_orders_spec_witness :
    ((([("B.esp", true), ("a.esp", false)] : List (String × Bool)).map
        (fun q => strLower q.1)).Nodup ∧
      (∀ q ∈ ([("B.esp", true), ("a.esp", false)] : List (String × Bool)),
        q.1 ≠ "") ∧
      (["a.esp", "B.esp"] : List String).Perm
        (([("B.esp", true), ("a.esp", false)] : List (String × Bool)).map
          Prod.fst)) ∧
    (merge_plugin_orders [("B.esp", true), ("a.esp", false)]
        (some ["a.esp", "B.esp"]) =
      (["a.esp", "B.esp"] : List String).map (fun f =>
        (if declaredFlag [("B.esp", true), ("a.esp", false)] f then "*"
          else "") ++ f)
    ∧ merge_plugin_orders [("B.esp", true), ("a.esp", false)] none =
      ([("B.esp", true), ("a.esp", false)] : List (String × Bool)).map
        (fun q => (if q.2 then "*" else "") ++ q.1)) :=
  ⟨⟨by decide, by decide, by decide⟩,
    merge_plugin_orders_spec [("B.esp", true), ("a.esp", false)]
      ["a.esp", "B.esp"] (by decide) (by decide) (by decide)⟩

/-- C6 (code bug): deploying a single game-root file into a game directory
that was empty beforehand and then undeploying the returned records
removes the game directory itself: `_cleanup_empty_parents` — whose own
docstring says it stops "at Data/ or game root" — has no knowledge of the
game root and keeps ascending (here it deletes `game` and stops only at
the filesystem root), so the destination tree is not restored and the
pruning escapes the game root. -/
theorem undeploy_escapes_game_root :
    (deploy ⟨[(["staging", "x.dll"], ["x.dll"])], [], []⟩ ["game"] "symlink"
        false ⟨[], [["game"]]⟩).1.deployed =
      [⟨["staging", "x.dll"], ["game", "x.dll"], "symlink"⟩] ∧
    (deploy ⟨[(["staging", "x.dll"], ["x.dll"])], [], []⟩ ["game"] "symlink"
        false ⟨[], [["game"]]⟩).2 =
      ⟨[(["game", "x.dll"], ["staging", "x.dll"])], [["game"]]⟩ ∧
    undeploy [⟨["staging", "x.dll"], ["game", "x.dll"], "symlink"⟩]
        ⟨[(["game", "x.dll"], ["staging", "x.dll"])], [["game"]]⟩ =
      (1, ⟨[], []⟩) ∧
    (["game"] : FPath) ∈ (⟨[], [["game"]]⟩ : FS).dirs ∧
    (["game"] : FPath) ∉ (⟨[], []⟩ : FS).dirs := by decide

theorem deployFile_files (fs : FS) (src dest : FPath) :
    (deployFile fs src dest).files =
      fs.files.filter (fun e => !(e.1 == dest)) ++ [(dest, src)] := by
  unfold deployFile mkdirParents unlink fileExists
  by_cases h : fs.files.any (fun e => e.1 == dest) = true
  · simp [h]
  · rw [Bool.not_eq_true] at h
    simp only [h, Bool.false_eq_true, if_false]
    have hself : fs.files.filter (fun e => !(e.1 == dest)) = fs.files := by
      apply List.filter_eq_self.2
      intro e he
      rw [List.any_eq_false] at h
      simpa using h e he
    rw [hself]

theorem find_filter_append (l : List (FPath × FPath)) (dest src p : FPath) :
    ((l.filter (fun e => !(e.1 == dest)) ++ [(dest, src)]).find?
        (fun e => e.1 == p)) =
      if p = dest then some (dest, src)
      else l.find? (fun e => e.1 == p) := by
  induction l with
  | nil =>
    by_cases hp : p = dest
    · simp [hp, List.find?]
    · have hdp : (dest == p) = false :=
        beq_eq_false_iff_ne.2 (fun hh => hp hh.symm)
      simp [hp, List.find?, hdp]
  | cons e t ih =>
    by_cases he : e.1 = dest
    · have hef : (!(e.1 == dest)) = false := by simp [he]
      by_cases hp : p = dest
      · simp [List.filter_cons, hef, ih, hp]
      · have hep : (e.1 == p) = false :=
          beq_eq_false_iff_ne.2 (by rw [he]; exact fun hh => hp hh.symm)
        simp [List.filter_cons, hef, ih, hp, List.find?_cons, hep]
    · have het : (!(e.1 == dest)) = true := by simp [he]
      by_cases hpe : e.1 = p
      · have hp : ¬ p = dest := fun hh => he (hpe.trans hh)
        have hept : (e.1 == p) = true := beq_iff_eq.2 hpe
        simp [List.filter_cons, het, hp, List.find?_cons, hept]
      · have hepf : (e.1 == p) = false := beq_eq_false_iff_ne.2 hpe
        simp [List.filter_cons, het, List.find?_cons, hepf, ih]

theorem lookup_deployFile (fs : FS) (src dest p : FPath) :
    lookupFile (deployFile fs src dest) p =
      if p = dest then some src else lookupFile fs p := by
  unfold lookupFile
  rw [deployFile_files, find_filter_append]
  by_cases hp : p = dest <;> simp [hp]

theorem rootFold_spec (gd : FPath) (m : String) (dry : Bool)
    (l : List (FPath × FPath)) :
    ∀ acc : DeployResult × FS,
      (l.foldl (rootStep gd m dry) acc).1.deployed.length =
        acc.1.deployed.length + l.length ∧
      (l.foldl (rootStep gd m dry) acc).1.conflicts = acc.1.conflicts := by
  induction l with
  | nil => intro acc; simp
  | cons e t ih =>
    intro acc
    have h := ih (rootStep gd m dry acc e)
    simp only [List.foldl_cons]
    refine ⟨?_, ?_⟩
    · rw [h.1]
      cases dry <;> simp [rootStep] <;> omega
    · rw [h.2]
      cases dry <;> simp [rootStep]

theorem mem_seen_update (seen : List (FPath × FPath)) (dest src x : FPath) :
    (x ∈ ((seen.filter (fun s => !(s.1 == dest))) ++ [(dest, src)]).map (·.1)) ↔
      (x ∈ seen.map (·.1) ∨ x = dest) := by
  constructor
  · intro h
    rcases List.mem_map.1 h with ⟨s, hs, hsx⟩
    rcases List.mem_append.1 hs with hs1 | hs2
    · exact Or.inl (List.mem_map.2 ⟨s, (List.mem_filter.1 hs1).1, hsx⟩)
    · have : s = (dest, src) := List.mem_singleton.1 hs2
      rw [this] at hsx
      exact Or.inr hsx.symm
  · intro h
    rcases h with h | h
    · rcases List.mem_map.1 h with ⟨s, hs, hsx⟩
      by_cases hsd : s.1 = dest
      · exact List.mem_map.2 ⟨(dest, src),
          List.mem_append.2 (Or.inr (List.mem_singleton.2 rfl)),
          by rw [show ((dest, src) : FPath × FPath).1 = dest from rfl,
            ← hsd, hsx]⟩
      · exact List.mem_map.2 ⟨s,
          List.mem_append.2 (Or.inl (List.mem_filter.2 ⟨hs, by simp [hsd]⟩)),
          hsx⟩
    · exact List.mem_map.2 ⟨(dest, src),
        List.mem_append.2 (Or.inr (List.mem_singleton.2 rfl)), h.symm⟩

theorem ite_update_deployed (C : Prop) [Decidable C] (r : DeployResult)
    (cs : List String) :
    (if C then { r with conflicts := cs } else r).deployed = r.deployed := by
  split <;> rfl

theorem ite_update_conflicts (C : Prop) [Decidable C] (r : DeployResult)
    (cs : List String) :
    (if C then { r with conflicts := cs } else r).conflicts =
      if C then cs else r.conflicts := by
  split <;> rfl

theorem dataStep_deployed (gd : FPath) (m : String) (dry : Bool)
    (acc : (DeployResult × FS) × List (FPath × FPath)) (e : FPath × FPath) :
    (dataStep gd m dry acc e).1.1.deployed =
      acc.1.1.deployed ++ [⟨e.1, (gd ++ ["Data"]) ++ e.2, m⟩] := by
  unfold dataStep
  cases dry <;> simp [ite_update_deployed]

theorem dataStep_seen (gd : FPath) (m : String) (dry : Bool)
    (acc : (DeployResult × FS) × List (FPath × FPath)) (e : FPath × FPath) :
    (dataStep gd m dry acc e).2 =
      (acc.2.filter (fun s => !(s.1 == (gd ++ ["Data"]) ++ e.2))) ++
        [((gd ++ ["Data"]) ++ e.2, e.1)] := by
  unfold dataStep
  cases dry <;> simp

theorem dataStep_fs (gd : FPath) (m : String) (dry : Bool)
    (acc : (DeployResult × FS) × List (FPath × FPath)) (e : FPath × FPath) :
    (dataStep gd m dry acc e).1.2 =
      if dry then acc.1.2
      else deployFile acc.1.2 e.1 ((gd ++ ["Data"]) ++ e.2) := by
  unfold dataStep
  cases dry <;> simp

theorem ite_update_skipped (C : Prop) [Decidable C] (r : DeployResult)
    (cs : List String) :
    (if C then { r with conflicts := cs } else r).skipped = r.skipped := by
  split <;> rfl

theorem ite_update_errors (C : Prop) [Decidable C] (r : DeployResult)
    (cs : List String) :
    (if C then { r with conflicts := cs } else r).errors = r.errors := by
  split <;> rfl

theorem dataStep_conflicts_nil (gd : FPath) (m : String) (dry : Bool)
    (acc : (DeployResult × FS) × List (FPath × FPath)) (e : FPath × FPath) :
    ((dataStep gd m dry acc e).1.1.conflicts = [] ↔
      (acc.1.1.conflicts = [] ∧
        ((acc.2.map (·.1)).contains ((gd ++ ["Data"]) ++ e.2)) = false)) := by
  unfold dataStep
  cases dry <;>
    · simp [ite_update_deployed, ite_update_conflicts, ite_update_skipped,
        ite_update_errors]
      split
      · rename_i hC
        simp [hC]
        intro _
        have hmem := List.elem_iff.1 hC
        have hxp : (gd ++ ["Data"]) ++ e.2 = gd ++ "Data" :: e.2 := by simp
        rw [hxp] at hmem
        rcases List.mem_map.1 hmem with ⟨s, hs, hsd⟩
        obtain ⟨s1, s2⟩ := s
        cases hsd
        exact ⟨s2, hs⟩
      · rename_i hC
        rw [Bool.not_eq_true] at hC
        simp [hC]
        intro _ x hx
        have hxp : (gd ++ ["Data"]) ++ e.2 = gd ++ "Data" :: e.2 := by simp
        have hmem : (gd ++ ["Data"]) ++ e.2 ∈ acc.2.map (·.1) :=
          List.mem_map.2 ⟨(gd ++ "Data" :: e.2, x), hx, by rw [hxp]⟩
        exact (contains_false_iff _ _).1 hC hmem

theorem dataFold_len (gd : FPath) (m : String) (dry : Bool)
    (l : List (FPath × FPath)) :
    ∀ acc : (DeployResult × FS) × List (FPath × FPath),
      (l.foldl (dataStep gd m dry) acc).1.1.deployed.length =
        acc.1.1.deployed.length + l.length := by
  induction l with
  | nil => intro acc; simp
  | cons e t ih =>
    intro acc
    simp only [List.foldl_cons]
    rw [ih (dataStep gd m dry acc e), dataStep_deployed]
    simp
    omega

theorem dataFold_conflicts_nil (gd : FPath) (m : String) (dry : Bool)
    (l : List (FPath × FPath)) :
    ∀ acc : (DeployResult × FS) × List (FPath × FPath),
      ((l.foldl (dataStep gd m dry) acc).1.1.conflicts = [] ↔
        (acc.1.1.conflicts = [] ∧
          (l.map (fun e => (gd ++ ["Data"]) ++ e.2)).Nodup ∧
          ∀ e ∈ l, ((gd ++ ["Data"]) ++ e.2) ∉ acc.2.map (·.1))) := by
  induction l with
  | nil => intro acc; simp
  | cons e t ih =>
    intro acc
    simp only [List.foldl_cons]
    rw [ih (dataStep gd m dry acc e)]
    rw [dataStep_conflicts_nil, dataStep_seen]
    constructor
    · rintro ⟨⟨hc0, hcf⟩, hnd, hfresh⟩
      have hce : ((gd ++ ["Data"]) ++ e.2) ∉ acc.2.map (·.1) :=
        (contains_false_iff _ _).1 hcf
      have hfresh' : ∀ x ∈ t, ((gd ++ ["Data"]) ++ x.2) ∉ acc.2.map (·.1) ∧
          ((gd ++ ["Data"]) ++ x.2) ≠ ((gd ++ ["Data"]) ++ e.2) := by
        intro x hx
        have h := hfresh x hx
        rw [mem_seen_update] at h
        exact ⟨fun hh => h (Or.inl hh), fun hh => h (Or.inr hh)⟩
      refine ⟨hc0, ?_, ?_⟩
      · rw [List.map_cons, List.nodup_cons]
        refine ⟨?_, hnd⟩
        intro hmem
        rcases List.mem_map.1 hmem with ⟨x, hx, hxe⟩
        exact (hfresh' x hx).2 hxe
      · intro x hx
        rcases List.mem_cons.1 hx with rfl | hx'
        · exact hce
        · exact (hfresh' x hx').1
    · rintro ⟨hc0, hnd, hfresh⟩
      rw [List.map_cons, List.nodup_cons] at hnd
      have hce : ((gd ++ ["Data"]) ++ e.2) ∉ acc.2.map (·.1) :=
        hfresh e (List.mem_cons_self e t)
      refine ⟨⟨hc0, (contains_false_iff _ _).2 hce⟩, hnd.2, ?_⟩
      intro x hx
      rw [mem_seen_update]
      rintro (hh | hh)
      · exact hfresh x (List.mem_cons_of_mem e hx) hh
      · exact hnd.1 (List.mem_map.2 ⟨x, hx, hh⟩)

theorem getLast?_cons_of_some {α : Type} (a b : α) (l : List α)
    (h : l.getLast? = some b) : (a :: l).getLast? = some b := by
  cases l with
  | nil => simp at h
  | cons c cs => rw [List.getLast?_cons_cons]; exact h

theorem dataFold_lookup (gd : FPath) (m : String) (l : List (FPath × FPath)) :
    ∀ (acc : (DeployResult × FS) × List (FPath × FPath)) (d : FPath),
      lookupFile (l.foldl (dataStep gd m false) acc).1.2 ((gd ++ ["Data"]) ++ d) =
        (match (l.filter (fun e => e.2 == d)).getLast? with
          | some e => some e.1
          | none => lookupFile acc.1.2 ((gd ++ ["Data"]) ++ d)) := by
  induction l with
  | nil => intro acc d; rfl
  | cons e t ih =>
    intro acc d
    simp only [List.foldl_cons]
    rw [ih (dataStep gd m false acc e) d]
    have hfs : (dataStep gd m false acc e).1.2 =
        deployFile acc.1.2 e.1 ((gd ++ ["Data"]) ++ e.2) := by
      rw [dataStep_fs]
      rfl
    by_cases hed : e.2 = d
    · have hfc : List.filter (fun x => x.2 == d) (e :: t) =
          e :: List.filter (fun x => x.2 == d) t := by
        rw [List.filter_cons]
        simp [hed]
      rw [hfc]
      cases hgl : (t.filter (fun x => x.2 == d)).getLast? with
      | some e' =>
        rw [getLast?_cons_of_some e e' _ hgl]
      | none =>
        have htf : t.filter (fun x => x.2 == d) = [] := by
          cases hfl : t.filter (fun x => x.2 == d) with
          | nil => rfl
          | cons a as =>
            rw [hfl] at hgl
            rcases (show ∃ b, (a :: as).getLast? = some b from by
              cases hq : (a :: as).getLast? with
              | none => exact absurd (List.getLast?_eq_none_iff.1 hq) (by simp)
              | some b => exact ⟨b, rfl⟩) with ⟨b, hb⟩
            rw [hb] at hgl
            exact Option.noConfusion hgl
        rw [htf]
        show lookupFile (dataStep gd m false acc e).1.2 ((gd ++ ["Data"]) ++ d) =
          some e.1
        rw [hed] at hfs
        rw [hfs, lookup_deployFile, if_pos rfl]
    · have hfc : List.filter (fun x => x.2 == d) (e :: t) =
          List.filter (fun x => x.2 == d) t := by
        rw [List.filter_cons]
        simp [hed]
      rw [hfc]
      cases hgl : (t.filter (fun x => x.2 == d)).getLast? with
      | some e' => rfl
      | none =>
        show lookupFile (dataStep gd m false acc e).1.2 ((gd ++ ["Data"]) ++ d) =
          lookupFile acc.1.2 ((gd ++ ["Data"]) ++ d)
        rw [hfs, lookup_deployFile]
        rw [if_neg]
        intro hh
        exact hed (List.append_cancel_left hh).symm

/-- C8 counterexample: two distinct staged sources both map to the
game-root destination `game/x.dll` in one run; the run completes and the
later source wins, but `deploy` records no conflict, because conflict
tracking (`seen_dests`) only exists in the `Data/` loop. -/
theorem deploy_root_conflict_cex :
    (deploy ⟨[(["s1", "x.dll"], ["x.dll"]), (["s2", "x.dll"], ["x.dll"])],
        [], []⟩ ["game"] "symlink" false ⟨[], [["game"]]⟩).1.conflicts = [] ∧
    (deploy ⟨[(["s1", "x.dll"], ["x.dll"]), (["s2", "x.dll"], ["x.dll"])],
        [], []⟩ ["game"] "symlink" false
        ⟨[], [["game"]]⟩).1.deployed.map (fun r => r.dest) =
      [["game", "x.dll"], ["game", "x.dll"]] ∧
    (deploy ⟨[(["s1", "x.dll"], ["x.dll"]), (["s2", "x.dll"], ["x.dll"])],
        [], []⟩ ["game"] "symlink" false ⟨[], [["game"]]⟩).2.files =
      [(["game", "x.dll"], ["s2", "x.dll"])] ∧
    (["s1", "x.dll"] : FPath) ≠ ["s2", "x.dll"] := by decide

/-- C8, amended: a destination collision inside the game-data partition is
always recorded as a conflict, the later source wins and the run continues
with all entries deployed; collisions inside the game-root partition are
silently last-writer-wins, with no conflict recorded. -/
theorem deploy_conflicts_amended (plan : DeploymentPlan) (gd : FPath)
    (method : String) (fs : FS) (d : FPath)
    (h₁ : d ∈ plan.data_files.map (·.2)) :
    DeployConflictSpec plan gd method fs d := by
  unfold DeployConflictSpec deploy
  refine ⟨?_, ?_, ?_⟩
  · rw [dataFold_conflicts_nil]
    have hroot := rootFold_spec gd method false plan.game_root_files
      (⟨[], [], [], []⟩, fs)
    rw [hroot.2]
    simp only [List.map_nil, List.not_mem_nil, not_false_iff, imp_true_iff,
      and_true, true_and]
    have hmm : (plan.data_files.map (fun e => (gd ++ ["Data"]) ++ e.2)) =
        (plan.data_files.map (·.2)).map (fun t => (gd ++ ["Data"]) ++ t) := by
      rw [List.map_map]
      rfl
    rw [hmm]
    constructor
    · exact fun h => h.of_map _
    · exact fun h => h.map (List.append_right_injective (gd ++ ["Data"]))
  · rw [dataFold_len]
    have hroot := rootFold_spec gd method false plan.game_root_files
      (⟨[], [], [], []⟩, fs)
    rw [hroot.1]
    simp
  · rw [dataFold_lookup]
    rcases List.mem_map.1 h₁ with ⟨e₀, he₀, he₀d⟩
    have hmemf : e₀ ∈ plan.data_files.filter (fun e => e.2 == d) :=
      List.mem_filter.2 ⟨he₀, beq_iff_eq.2 he₀d⟩
    have hnonnil : plan.data_files.filter (fun e => e.2 == d) ≠ [] := by
      intro hh
      rw [hh] at hmemf
      exact List.not_mem_nil e₀ hmemf
    cases hgl : (plan.data_files.filter (fun e => e.2 == d)).getLast? with
    | none => exact absurd (List.getLast?_eq_none_iff.1 hgl) hnonnil
    | some b => rfl

/-- Witness for `deploy_conflicts_amended`: two data-partition entries
collide on `Data/m.esp`. -/
theorem deploy_conflicts_amended_witness :
    ((["m.esp"] : FPath) ∈
      ([(["sA", "m.esp"], ["m.esp"]), (["sB", "m.esp"], ["m.esp"])]
        : List (FPath × FPath)).map (·.2)) ∧
    DeployConflictSpec
      ⟨[], [(["sA", "m.esp"], ["m.esp"]), (["sB", "m.esp"], ["m.esp"])], []⟩
      ["game"] "symlink" ⟨[], [["game"]]⟩ ["m.esp"] :=
  ⟨by decide, deploy_conflicts_amended
    ⟨[], [(["sA", "m.esp"], ["m.esp"]), (["sB", "m.esp"], ["m.esp"])], []⟩
    ["game"] "symlink" ⟨[], [["game"]]⟩ ["m.esp"] (by decide)⟩

/-- C4: phase contributes no edges — the graph builder `buildGraph` takes
no phase input at all — and phase acts only as the first tie-break
component of the ready queue: with mods `{A: phase 0, B: phase 0,
C: phase 1}` and the single rule `before(B, A)` and no requirement edges,
the resolver emits exactly `[B, A, C]`. -/
theorem sort_mods_phase_tiebreak_example :
    sort_mods [⟨"before", some 2, some 1⟩] []
        [(1, "A"), (2, "B"), (3, "C")] (fun m => if m = 3 then 1 else 0) =
      [2, 1, 3] := by decide

theorem acyclic_of_rank (g : Int → Int → Prop) (r : Int → Nat)
    (h : ∀ a b, g a b → r a < r b) (v : Int) :
    ¬ Relation.TransGen g v v := by
  intro hv
  have hmono : ∀ a b : Int, Relation.TransGen g a b → r a < r b := by
    intro a b hab
    induction hab with
    | single hs => exact h _ _ hs
    | tail _ hs ih => exact Nat.lt_trans ih (h _ _ hs)
  exact Nat.lt_irrefl (r v) (hmono v v hv)

/-- C3 counterexample: the manifest lists the rule `before(3, 1)` twice
(plus `before(1, 2)`); the duplicate inflates `in_degree[1]` to 2 while
the edge set holds one edge, so node 1 never reaches in-degree 0, the
fallback emits the remainder by name — and the acyclic graph's edge
`1 → 2` ends up violated in the output `[3, 2, 1]`. -/
theorem sort_mods_duplicate_rule_cex :
    (buildGraph
        [⟨"before", some 3, some 1⟩, ⟨"before", some 3, some 1⟩,
          ⟨"before", some 1, some 2⟩] []
        ((([(1, "z"), (2, "b"), (3, "c")] : List (Int × String)).map
          (·.1)).dedup)).1 = [(3, 1), (1, 2)] ∧
    Acyclic [(3, 1), (1, 2)] ∧
    sort_mods
        [⟨"before", some 3, some 1⟩, ⟨"before", some 3, some 1⟩,
          ⟨"before", some 1, some 2⟩] []
        [(1, "z"), (2, "b"), (3, "c")] (fun _ => 0) = [3, 2, 1] ∧
    ¬ (idxOf [3, 2, 1] 1 < idxOf [3, 2, 1] 2) := by
  refine ⟨by decide, ?_, by decide, by decide⟩
  intro v
  apply acyclic_of_rank _ (fun v => if v = 3 then 0 else if v = 1 then 1 else 2)
  intro a b hab
  rcases List.mem_cons.1 hab with h | h
  · rcases Prod.mk.injEq .. ▸ h with ⟨rfl, rfl⟩
    decide
  · rcases List.mem_singleton.1 h with h'
    rcases Prod.mk.injEq .. ▸ h' with ⟨rfl, rfl⟩
    decide

theorem nodup_subset_length {α : Type} [DecidableEq α] {l₁ l₂ : List α}
    (h1 : l₁.Nodup) (h2 : l₁ ⊆ l₂) : l₁.length ≤ l₂.length :=
  (List.subperm_of_subset h1 h2).length_le

theorem nodup_ssubset_length {α : Type} [DecidableEq α] {l₁ l₂ : List α}
    {x : α} (h1 : l₁.Nodup) (h2 : l₁ ⊆ l₂) (hx₂ : x ∈ l₂) (hx₁ : x ∉ l₁) :
    l₁.length < l₂.length := by
  have hsub : l₁ ⊆ l₂.erase x := by
    intro y hy
    have hxy : y ≠ x := fun hh => hx₁ (hh ▸ hy)
    exact (List.mem_erase_of_ne hxy).2 (h2 hy)
  have h := nodup_subset_length h1 hsub
  have he := List.length_erase_of_mem hx₂
  have hpos : 0 < l₂.length := List.length_pos.2 (List.ne_nil_of_mem hx₂)
  omega

theorem insertBy_perm {α : Type} (lt : α → α → Bool) (a : α) (l : List α) :
    (insertBy lt a l).Perm (a :: l) := by
  induction l with
  | nil => exact List.Perm.refl _
  | cons b bs ih =>
    unfold insertBy
    split
    · exact List.Perm.refl _
    · exact (List.Perm.cons b ih).trans (List.Perm.swap a b bs)

theorem sortBy_perm {α : Type} (lt : α → α → Bool) (l : List α) :
    (sortBy lt l).Perm l := by
  have hgen : ∀ (l acc : List α),
      (l.foldl (fun acc x => insertBy lt x acc) acc).Perm (acc ++ l) := by
    intro l
    induction l with
    | nil => intro acc; simp
    | cons x t ih =>
      intro acc
      simp only [List.foldl_cons]
      refine (ih (insertBy lt x acc)).trans ?_
      refine (List.Perm.append_right t (insertBy_perm lt x acc)).trans ?_
      exact (List.perm_middle).symm.trans (List.Perm.refl _) |>.symm |>.symm
  simpa using hgen l []

theorem popMin_none (l : List (Int × String × Int)) (h : popMin l = none) :
    l = [] := by
  cases l with
  | nil => rfl
  | cons t ts =>
    unfold popMin at h
    cases hq : popMin ts with
    | none => rw [hq] at h; exact Option.noConfusion h
    | some pr =>
      rw [hq] at h
      rcases pr with ⟨mn, rest⟩
      by_cases hlt : tripLt mn t = true <;> simp [hlt] at h

theorem popMin_perm (l : List (Int × String × Int))
    (t : Int × String × Int) (rest : List (Int × String × Int))
    (h : popMin l = some (t, rest)) : l.Perm (t :: rest) := by
  induction l generalizing t rest with
  | nil => exact Option.noConfusion h
  | cons a ts ih =>
    unfold popMin at h
    cases hq : popMin ts with
    | none =>
      simp only [hq] at h
      have hts := popMin_none ts hq
      cases h
      rw [hts]
    | some pr =>
      rcases pr with ⟨mn, rest'⟩
      simp only [hq] at h
      by_cases hlt : tripLt mn a = true
      · rw [if_pos hlt] at h
        injection h with h'
        injection h' with h1 h2
        rw [← h1, ← h2]
        have hperm := ih mn rest' hq
        exact (List.Perm.cons a hperm).trans (List.Perm.swap mn a rest')
      · rw [if_neg hlt] at h
        injection h with h'
        injection h' with h1 h2
        rw [← h1, ← h2]

theorem idxOf_lt_length (l : List Int) (v : Int) (h : v ∈ l) :
    idxOf l v < l.length := by
  induction l with
  | nil => exact absurd h (List.not_mem_nil v)
  | cons x xs ih =>
    unfold idxOf
    by_cases hx : x = v
    · simp [hx]
    · rcases List.mem_cons.1 h with h' | h'
      · exact absurd h'.symm hx
      · simp only [hx, if_false, List.length_cons]
        exact Nat.succ_lt_succ (ih h')

theorem idxOf_append_left (l l' : List Int) (v : Int) (h : v ∈ l) :
    idxOf (l ++ l') v = idxOf l v := by
  induction l with
  | nil => exact absurd h (List.not_mem_nil v)
  | cons x xs ih =>
    by_cases hx : x = v
    · simp [idxOf, hx]
    · rcases List.mem_cons.1 h with h' | h'
      · exact absurd h'.symm hx
      · simp only [List.cons_append, idxOf, hx, if_false, List.append_eq]
        rw [ih h']

theorem idxOf_append_self (l : List Int) (v : Int) (h : v ∉ l) :
    idxOf (l ++ [v]) v = l.length := by
  induction l with
  | nil => simp [idxOf]
  | cons x xs ih =>
    have hx : ¬ x = v := fun hh => h (hh ▸ List.mem_cons_self x xs)
    simp only [List.cons_append, idxOf, hx, if_false, List.length_cons,
      List.append_eq]
    rw [ih (fun hh => h (List.mem_cons_of_mem x hh))]

theorem pairv_injective (v : Int) :
    Function.Injective (fun u : Int => (u, v)) := by
  intro a b hab
  injection hab

theorem emitCnt_le_inCnt (edges : List (Int × Int)) (E : List Int) (v : Int)
    (hE : E.Nodup) : emitCnt edges E v ≤ inCnt edges v := by
  unfold emitCnt inCnt
  rw [← List.length_map (E.filter (fun u => edges.contains (u, v)))
    (fun u => (u, v))]
  apply nodup_subset_length ((hE.filter _).map (pairv_injective v))
  intro x hx
  rcases List.mem_map.1 hx with ⟨u, hu, rfl⟩
  rcases List.mem_filter.1 hu with ⟨huE, hcont⟩
  exact List.mem_filter.2 ⟨List.elem_iff.1 hcont, by simp⟩

theorem sources_emitted (edges : List (Int × Int)) (E : List Int) (v : Int)
    (hE : E.Nodup) (heq : emitCnt edges E v = inCnt edges v) :
    ∀ u : Int, (u, v) ∈ edges → u ∈ E := by
  intro u huv
  by_contra hu
  have hlt : emitCnt edges E v < inCnt edges v := by
    unfold emitCnt inCnt
    rw [← List.length_map (E.filter (fun w => edges.contains (w, v)))
      (fun w => (w, v))]
    apply nodup_ssubset_length ((hE.filter _).map (pairv_injective v))
      ?_ (x := (u, v)) (List.mem_filter.2 ⟨huv, by simp⟩) ?_
    · intro x hx
      rcases List.mem_map.1 hx with ⟨w, hw, rfl⟩
      rcases List.mem_filter.1 hw with ⟨hwE, hcont⟩
      exact List.mem_filter.2 ⟨List.elem_iff.1 hcont, by simp⟩
    · intro hmem
      rcases List.mem_map.1 hmem with ⟨w, hw, hww⟩
      injection hww with hw1 hw2
      rw [hw1] at hw
      exact hu (List.mem_filter.1 hw).1
  omega

theorem exists_unemitted_source (edges : List (Int × Int)) (E : List Int)
    (v : Int) (hedges : edges.Nodup)
    (hlt : emitCnt edges E v < inCnt edges v) :
    ∃ u : Int, (u, v) ∈ edges ∧ u ∉ E := by
  by_contra hall
  push_neg at hall
  have hge : inCnt edges v ≤ emitCnt edges E v := by
    unfold emitCnt inCnt
    rw [← List.length_map (edges.filter (fun e => e.2 == v)) (fun e => e.1)]
    apply nodup_subset_length
    · apply List.Nodup.map_on ?_ (hedges.filter _)
      intro x hx y hy hxy
      have hx2 : x.2 = v := by simpa using (List.mem_filter.1 hx).2
      have hy2 : y.2 = v := by simpa using (List.mem_filter.1 hy).2
      exact Prod.ext hxy (hx2.trans hy2.symm)
    · intro u hu
      rcases List.mem_map.1 hu with ⟨e, he, rfl⟩
      rcases List.mem_filter.1 he with ⟨heE, he2⟩
      have he2' : e.2 = v := by simpa using he2
      have hpair : (e.1, v) ∈ edges := by
        rw [← he2']
        exact heE
      exact List.mem_filter.2 ⟨hall e.1 hpair, List.elem_iff.2 hpair⟩
  omega

theorem inCnt_append_single (edges : List (Int × Int)) (a b v : Int) :
    inCnt (edges ++ [(a, b)]) v =
      inCnt edges v + (if b = v then 1 else 0) := by
  unfold inCnt
  rw [List.filter_append, List.length_append]
  by_cases hb : b = v <;> simp [hb]

theorem graphInv_addRuleEdge (ids : List Int)
    (st : List (Int × Int) × (Int → Int)) (a b : Int)
    (ha : a ∈ ids) (hb : b ∈ ids) (h : GraphInv ids st) :
    GraphInv ids (addRuleEdge st a b) := by
  obtain ⟨h1, h2, h3⟩ := h
  have hsnd : (addRuleEdge st a b).2 =
      fun v => if v = b then st.2 v + 1 else st.2 v := rfl
  by_cases hm : st.1.contains (a, b) = true
  · have hfst : (addRuleEdge st a b).1 = st.1 := by
      unfold addRuleEdge
      simp [List.elem_iff.1 hm]
    refine ⟨hfst ▸ h1, hfst ▸ h2, ?_⟩
    intro v
    rw [hfst, hsnd]
    by_cases hv : v = b
    · subst hv
      simp only [if_pos rfl]
      have := h3 v
      omega
    · simp only [if_neg hv]
      exact h3 v
  · rw [Bool.not_eq_true] at hm
    have hnotmem : (a, b) ∉ st.1 := (contains_false_iff _ _).1 hm
    have hfst : (addRuleEdge st a b).1 = st.1 ++ [(a, b)] := by
      unfold addRuleEdge
      simp [hnotmem]
    refine ⟨?_, ?_, ?_⟩
    · rw [hfst]
      exact h1.append (List.nodup_singleton _)
        (fun x hx hy => hnotmem ((List.mem_singleton.1 hy) ▸ hx))
    · rw [hfst]
      intro e he
      rcases List.mem_append.1 he with he' | he'
      · exact h2 e he'
      · rw [List.mem_singleton.1 he']
        exact ⟨ha, hb⟩
    · intro v
      rw [hfst, hsnd, inCnt_append_single]
      by_cases hv : v = b
      · subst hv
        simp only [if_pos rfl]
        have := h3 v
        push_cast
        omega
      · have hbv : ¬ b = v := fun hh => hv hh.symm
        simp only [if_neg hv, if_neg hbv]
        have := h3 v
        omega

theorem graphInv_addReqEdge (ids : List Int)
    (st : List (Int × Int) × (Int → Int)) (req mid : Int)
    (ha : req ∈ ids) (hb : mid ∈ ids) (h : GraphInv ids st) :
    GraphInv ids (addReqEdge st req mid) := by
  obtain ⟨h1, h2, h3⟩ := h
  by_cases hm : st.1.contains (req, mid) = true
  · have : addReqEdge st req mid = st := by
      unfold addReqEdge
      simp [List.elem_iff.1 hm]
    rw [this]
    exact ⟨h1, h2, h3⟩
  · rw [Bool.not_eq_true] at hm
    have hnotmem : (req, mid) ∉ st.1 := (contains_false_iff _ _).1 hm
    have hstep : addReqEdge st req mid =
        (st.1 ++ [(req, mid)],
          fun v => if v = mid then st.2 v + 1 else st.2 v) := by
      unfold addReqEdge
      simp [hnotmem]
    rw [hstep]
    refine ⟨?_, ?_, ?_⟩
    · exact h1.append (List.nodup_singleton _)
        (fun x hx hy => hnotmem ((List.mem_singleton.1 hy) ▸ hx))
    · intro e he
      rcases List.mem_append.1 he with he' | he'
      · exact h2 e he'
      · rw [List.mem_singleton.1 he']
        exact ⟨ha, hb⟩
    · intro v
      show (inCnt (st.1 ++ [(req, mid)]) v : Int) ≤ _
      rw [inCnt_append_single]
      by_cases hv : v = mid
      · subst hv
        simp only [if_pos rfl]
        have := h3 v
        push_cast
        omega
      · have hbv : ¬ mid = v := fun hh => hv hh.symm
        simp only [if_neg hv, if_neg hbv]
        have := h3 v
        omega

theorem graphInv_applyRule (ids : List Int)
    (st : List (Int × Int) × (Int → Int)) (r : Rule) (h : GraphInv ids st) :
    GraphInv ids (applyRule ids st r) := by
  unfold applyRule
  cases hs : r.source with
  | none => exact h
  | some s =>
    cases ht : r.target with
    | none => exact h
    | some t =>
      by_cases hmem : (ids.contains s && ids.contains t) = true
      · rw [Bool.and_eq_true] at hmem
        have hsm : s ∈ ids := List.elem_iff.1 hmem.1
        have htm : t ∈ ids := List.elem_iff.1 hmem.2
        simp only [Bool.and_eq_true, hmem.1, hmem.2, and_self, if_true]
        by_cases hb : (r.type == "before") = true
        · simp only [hb, if_true]
          exact graphInv_addRuleEdge ids st s t hsm htm h
        · simp only [hb, Bool.false_eq_true, if_false]
          by_cases haf : (r.type == "after") = true
          · simp only [haf, if_true]
            exact graphInv_addRuleEdge ids st t s htm hsm h
          · simp only [haf, Bool.false_eq_true, if_false]
            by_cases hrq : (r.type == "requires") = true
            · simp only [hrq, if_true]
              exact graphInv_addRuleEdge ids st t s htm hsm h
            · simp only [hrq, Bool.false_eq_true, if_false]
              exact h
      · rw [Bool.not_eq_true] at hmem
        simp only [hmem, Bool.false_eq_true, if_false]
        exact h

theorem graphInv_applyReqs (ids : List Int)
    (st : List (Int × Int) × (Int → Int)) (reqs : List (Int × List Int))
    (h : GraphInv ids st) : GraphInv ids (applyReqs ids st reqs) := by
  unfold applyReqs
  induction reqs generalizing st with
  | nil => exact h
  | cons pr t ih =>
    simp only [List.foldl_cons]
    apply ih
    by_cases hpm : ids.contains pr.1 = true
    · simp only [hpm, if_true]
      have hmid : pr.1 ∈ ids := List.elem_iff.1 hpm
      have hinner : ∀ (rs : List Int) (st' : List (Int × Int) × (Int → Int)),
          GraphInv ids st' →
          GraphInv ids (rs.foldl (fun st req =>
            if ids.contains req then addReqEdge st req pr.1 else st) st') := by
        intro rs
        induction rs with
        | nil => intro st' h'; exact h'
        | cons rq rt ihr =>
          intro st' h'
          simp only [List.foldl_cons]
          apply ihr
          by_cases hrq : ids.contains rq = true
          · simp only [hrq, if_true]
            exact graphInv_addReqEdge ids st' rq pr.1 (List.elem_iff.1 hrq)
              hmid h'
          · rw [Bool.not_eq_true] at hrq
            simp only [hrq, Bool.false_eq_true, if_false]
            exact h'
      exact hinner pr.2 st h
    · rw [Bool.not_eq_true] at hpm
      simp only [hpm, Bool.false_eq_true, if_false]
      exact h

theorem graphInv_buildGraph (rules : List Rule) (reqs : List (Int × List Int))
    (ids : List Int) : GraphInv ids (buildGraph rules reqs ids) := by
  unfold buildGraph
  apply graphInv_applyReqs
  have hfold : ∀ (rl : List Rule) (st : List (Int × Int) × (Int → Int)),
      GraphInv ids st → GraphInv ids (rl.foldl (applyRule ids) st) := by
    intro rl
    induction rl with
    | nil => intro st h; exact h
    | cons r t ih =>
      intro st h
      simp only [List.foldl_cons]
      exact ih _ (graphInv_applyRule ids st r h)
  apply hfold
  refine ⟨List.nodup_nil, by simp, ?_⟩
  intro v
  simp [inCnt]

theorem relaxNeighbors_spec (phases : Int → Int) (mods : List (Int × String))
    (ns : List Int) :
    ns.Nodup → ∀ (d : Int → Int) (q : List (Int × String × Int)),
      relaxNeighbors phases mods ns d q =
        (fun v => if v ∈ ns then d v - 1 else d v,
          q ++ (ns.filter (fun n => d n == 1)).map (mkTrip phases mods)) := by
  induction ns with
  | nil =>
    intro _ d q
    refine Prod.ext ?_ ?_
    · funext v
      simp [relaxNeighbors]
    · simp [relaxNeighbors]
  | cons n rest ih =>
    intro hnd d q
    rw [List.nodup_cons] at hnd
    show relaxNeighbors phases mods rest
        (fun v => if v = n then d v - 1 else d v)
        (if (if n = n then d n - 1 else d n) = 0 then
          q ++ [mkTrip phases mods n] else q) = _
    rw [ih hnd.2]
    refine Prod.ext ?_ ?_
    · funext v
      by_cases hv : v = n
      · subst hv
        simp [hnd.1]
      · by_cases hr : v ∈ rest <;> simp [hv, hr]
    · have hfc : rest.filter
            (fun x => (if x = n then d x - 1 else d x) == 1) =
          rest.filter (fun x => d x == 1) := by
        apply List.filter_congr
        intro x hx
        have hxn : ¬ x = n := fun hh => hnd.1 (hh ▸ hx)
        simp [hxn]
      simp only [eq_self_iff_true, if_true]
      rw [hfc, List.filter_cons]
      by_cases hd1 : d n = 1
      · have hb : (d n == 1) = true := by simp [hd1]
        have hz : d n - 1 = 0 := by omega
        simp [hb, hz]
      · have hb : (d n == 1) = false := by simp [hd1]
        have hz : ¬ (d n - 1 = 0) := by omega
        simp [hb, hz]

theorem mem_sortedNeighbors (edges : List (Int × Int)) (u n : Int) :
    n ∈ sortedNeighbors edges u ↔ (u, n) ∈ edges := by
  unfold sortedNeighbors
  rw [(sortBy_perm _ _).mem_iff]
  constructor
  · intro h
    rcases List.mem_map.1 h with ⟨e, he, rfl⟩
    rcases List.mem_filter.1 he with ⟨heE, he1⟩
    have he1' : e.1 = u := by simpa using he1
    rw [← he1']
    exact heE
  · intro h
    exact List.mem_map.2 ⟨(u, n), List.mem_filter.2 ⟨h, by simp⟩, rfl⟩

theorem nodup_sortedNeighbors (edges : List (Int × Int)) (u : Int)
    (hedges : edges.Nodup) : (sortedNeighbors edges u).Nodup := by
  unfold sortedNeighbors
  apply (sortBy_perm _ _).nodup_iff.2
  apply List.Nodup.map_on ?_ (hedges.filter _)
  intro x hx y hy hxy
  have hx1 : x.1 = u := by simpa using (List.mem_filter.1 hx).2
  have hy1 : y.1 = u := by simpa using (List.mem_filter.1 hy).2
  exact Prod.ext (hx1.trans hy1.symm) hxy

theorem emitCnt_append_single (edges : List (Int × Int)) (E : List Int)
    (m v : Int) :
    emitCnt edges (E ++ [m]) v =
      emitCnt edges E v + (if (m, v) ∈ edges then 1 else 0) := by
  unfold emitCnt
  rw [List.filter_append, List.length_append]
  by_cases hm : (m, v) ∈ edges
  · simp [hm, List.elem_iff.2 hm]
  · have hc : edges.contains (m, v) = false := (contains_false_iff _ _).2 hm
    simp [hm, hc]

theorem kahn_step (edges : List (Int × Int)) (indeg0 : Int → Int)
    (ids : List Int) (phases : Int → Int) (mods : List (Int × String))
    (hedges : edges.Nodup)
    (hedgemem : ∀ e ∈ edges, e.1 ∈ ids ∧ e.2 ∈ ids)
    (hindeg : ∀ v : Int, (inCnt edges v : Int) ≤ indeg0 v)
    (q : List (Int × String × Int)) (d : Int → Int) (E : List Int)
    (t : Int × String × Int) (rest : List (Int × String × Int))
    (hpop : popMin q = some (t, rest))
    (hinv : KahnInv edges indeg0 ids q d E) :
    KahnInv edges indeg0 ids
      (relaxNeighbors phases mods (sortedNeighbors edges t.2.2) d rest).2
      (relaxNeighbors phases mods (sortedNeighbors edges t.2.2) d rest).1
      (E ++ [t.2.2]) ∧
    (OrdInv edges E → OrdInv edges (E ++ [t.2.2])) := by
  obtain ⟨i1, i2, i3, i4, i5, i6, i7⟩ := hinv
  have hqperm : q.Perm (t :: rest) := popMin_perm q t rest hpop
  have hqmap : (q.map (·.2.2)).Perm (t.2.2 :: rest.map (·.2.2)) := by
    simpa using hqperm.map (·.2.2)
  have hEq : (E ++ (t.2.2 :: rest.map (·.2.2))).Nodup :=
    ((List.Perm.append_left E hqmap).nodup_iff).1 i1
  obtain ⟨hE_nd, hq_nd, hdisj⟩ := List.nodup_append.1 hEq
  obtain ⟨hmid_rm, hrm_nd⟩ := List.nodup_cons.1 hq_nd
  have hmidE : t.2.2 ∉ E := fun hh =>
    hdisj hh (List.mem_cons_self _ _)
  have htq : t ∈ q := hqperm.mem_iff.2 (List.mem_cons_self t rest)
  have hdmid : d t.2.2 = 0 := i5 t htq
  have hmid_ids : t.2.2 ∈ ids := i3 t htq
  have hemit_eq : emitCnt edges E t.2.2 = inCnt edges t.2.2 := by
    have h4 := i4 t.2.2
    have hle := emitCnt_le_inCnt edges E t.2.2 hE_nd
    have hin := hindeg t.2.2
    omega
  have hsrcE : ∀ u : Int, (u, t.2.2) ∈ edges → u ∈ E :=
    sources_emitted edges E t.2.2 hE_nd hemit_eq
  have hns_nd : (sortedNeighbors edges t.2.2).Nodup :=
    nodup_sortedNeighbors edges t.2.2 hedges
  have hpos : ∀ n ∈ sortedNeighbors edges t.2.2, 0 < d n := by
    intro n hn
    have hedge := (mem_sortedNeighbors edges t.2.2 n).1 hn
    by_contra hcon
    push_neg at hcon
    have h4 := i4 n
    have hle := emitCnt_le_inCnt edges E n hE_nd
    have hin := hindeg n
    have heq : emitCnt edges E n = inCnt edges n := by omega
    exact hmidE (sources_emitted edges E n hE_nd heq t.2.2 hedge)
  rw [relaxNeighbors_spec phases mods (sortedNeighbors edges t.2.2) hns_nd d
    rest]
  have hpushids : (((sortedNeighbors edges t.2.2).filter
        (fun n => d n == 1)).map (mkTrip phases mods)).map (·.2.2) =
      (sortedNeighbors edges t.2.2).filter (fun n => d n == 1) := by
    rw [List.map_map]
    exact List.map_id' _
  constructor
  · refine ⟨?_, ?_, ?_, ?_, ?_, ?_, ?_⟩
    · rw [List.map_append, hpushids]
      have hassoc : (E ++ [t.2.2]) ++ (rest.map (·.2.2) ++
          (sortedNeighbors edges t.2.2).filter (fun n => d n == 1)) =
          (E ++ (t.2.2 :: rest.map (·.2.2))) ++
            (sortedNeighbors edges t.2.2).filter (fun n => d n == 1) := by
        simp
      rw [hassoc]
      apply hEq.append ((hns_nd.filter _))
      intro x hx hx2
      rcases List.mem_filter.1 hx2 with ⟨hxns, hxd⟩
      have hxd1 : d x = 1 := by simpa using hxd
      rcases List.mem_append.1 hx with hxE | hxq
      · exact absurd (i6 x hxE) (by omega)
      · rcases List.mem_cons.1 hxq with h | h
        · rw [h] at hxd1
          omega
        · have hdx0 : d x = 0 := by
            rcases List.mem_map.1 h with ⟨tr, htr, htrx⟩
            have htr_q : tr ∈ q := hqperm.mem_iff.2
              (List.mem_cons_of_mem t htr)
            rw [← htrx]
            exact i5 tr htr_q
          omega
    · intro m hm
      rcases List.mem_append.1 hm with h | h
      · exact i2 m h
      · rw [List.mem_singleton.1 h]
        exact hmid_ids
    · intro tr htr
      rcases List.mem_append.1 htr with h | h
      · exact i3 tr (hqperm.mem_iff.2 (List.mem_cons_of_mem t h))
      · rcases List.mem_map.1 h with ⟨n, hn, rfl⟩
        rcases List.mem_filter.1 hn with ⟨hnns, _⟩
        exact (hedgemem _ ((mem_sortedNeighbors edges t.2.2 n).1 hnns)).2
    · intro v
      rw [emitCnt_append_single]
      by_cases hv : v ∈ sortedNeighbors edges t.2.2
      · have hedge := (mem_sortedNeighbors edges t.2.2 v).1 hv
        have h4 := i4 v
        simp only [if_pos hv, if_pos hedge]
        push_cast
        omega
      · have hnedge : (t.2.2, v) ∉ edges :=
          fun hh => hv ((mem_sortedNeighbors edges t.2.2 v).2 hh)
        have h4 := i4 v
        simp only [if_neg hv, if_neg hnedge, Nat.add_zero]
        omega
    · intro tr htr
      rcases List.mem_append.1 htr with h | h
      · have htr_q : tr ∈ q := hqperm.mem_iff.2 (List.mem_cons_of_mem t h)
        have hd0 := i5 tr htr_q
        by_cases hv : tr.2.2 ∈ sortedNeighbors edges t.2.2
        · exact absurd hd0 (by have := hpos tr.2.2 hv; omega)
        · simpa [hv] using hd0
      · rcases List.mem_map.1 h with ⟨n, hn, rfl⟩
        rcases List.mem_filter.1 hn with ⟨hnns, hnd1⟩
        have hnd1' : d n = 1 := by simpa using hnd1
        simp only [mkTrip]
        simp [hnns, hnd1']
    · intro m hm
      rcases List.mem_append.1 hm with h | h
      · have hd0 := i6 m h
        by_cases hv : m ∈ sortedNeighbors edges t.2.2
        · exact absurd hd0 (by have := hpos m hv; omega)
        · simpa [hv] using hd0
      · rw [List.mem_singleton.1 h]
        by_cases hv : t.2.2 ∈ sortedNeighbors edges t.2.2
        · exact absurd hdmid (by have := hpos t.2.2 hv; omega)
        · simpa [hv] using hdmid
    · intro v hvids hvE hvq
      rw [List.map_append, hpushids] at hvq
      have hvE' : v ∉ E := fun hh => hvE (List.mem_append_left _ hh)
      have hvmid : v ≠ t.2.2 := fun hh =>
        hvE (List.mem_append_right _ (hh ▸ List.mem_singleton_self _))
      have hvrest : v ∉ rest.map (·.2.2) :=
        fun hh => hvq (List.mem_append_left _ hh)
      have hvpush : v ∉ (sortedNeighbors edges t.2.2).filter
          (fun n => d n == 1) :=
        fun hh => hvq (List.mem_append_right _ hh)
      have hvq0 : v ∉ q.map (·.2.2) := by
        intro hh
        rcases List.mem_cons.1 (hqmap.mem_iff.1 hh) with h | h
        · exact hvmid h
        · exact hvrest h
      have hold := i7 v hvids hvE' hvq0
      by_cases hv : v ∈ sortedNeighbors edges t.2.2
      · have hne1 : ¬ (d v = 1) := by
          intro hh
          exact hvpush (List.mem_filter.2 ⟨hv, by simp [hh]⟩)
        simp only [if_pos hv]
        omega
      · simpa [hv] using hold
  · intro hOrd a b hedge hbE
    rcases List.mem_append.1 hbE with hb | hb
    · obtain ⟨haE, hidx⟩ := hOrd a b hedge hb
      refine ⟨List.mem_append_left _ haE, ?_⟩
      rw [idxOf_append_left E [t.2.2] a haE, idxOf_append_left E [t.2.2] b hb]
      exact hidx
    · rw [List.mem_singleton.1 hb] at hedge ⊢
      have haE : a ∈ E := hsrcE a hedge
      refine ⟨List.mem_append_left _ haE, ?_⟩
      rw [idxOf_append_left E [t.2.2] a haE,
        idxOf_append_self E t.2.2 hmidE]
      exact idxOf_lt_length E a haE

theorem kahnLoop_spec (edges : List (Int × Int)) (indeg0 : Int → Int)
    (ids : List Int) (phases : Int → Int) (mods : List (Int × String))
    (hedges : edges.Nodup)
    (hedgemem : ∀ e ∈ edges, e.1 ∈ ids ∧ e.2 ∈ ids)
    (hindeg : ∀ v : Int, (inCnt edges v : Int) ≤ indeg0 v) :
    ∀ (fuel : Nat) (q : List (Int × String × Int)) (d : Int → Int)
      (E : List Int), KahnInv edges indeg0 ids q d E →
      KahnInv edges indeg0 ids
          (kahnLoop edges phases mods fuel q d E).2.1
          (kahnLoop edges phases mods fuel q d E).2.2
          (kahnLoop edges phases mods fuel q d E).1 ∧
        (OrdInv edges E → OrdInv edges (kahnLoop edges phases mods fuel q d E).1) ∧
        ((kahnLoop edges phases mods fuel q d E).2.1 = [] ∨
          (kahnLoop edges phases mods fuel q d E).1.length = E.length + fuel) := by
  intro fuel
  induction fuel with
  | zero =>
    intro q d E hinv
    exact ⟨hinv, fun h => h, Or.inr rfl⟩
  | succ fuel ih =>
    intro q d E hinv
    cases hpop : popMin q with
    | none =>
      have hq : q = [] := popMin_none q hpop
      simp only [kahnLoop, hpop]
      exact ⟨hinv, fun h => h, Or.inl hq⟩
    | some pr =>
      rcases pr with ⟨t, rest⟩
      have hstep := kahn_step edges indeg0 ids phases mods hedges hedgemem
        hindeg q d E t rest hpop hinv
      have hrec := ih
        (relaxNeighbors phases mods (sortedNeighbors edges t.2.2) d rest).2
        (relaxNeighbors phases mods (sortedNeighbors edges t.2.2) d rest).1
        (E ++ [t.2.2]) hstep.1
      simp only [kahnLoop, hpop]
      refine ⟨hrec.1, fun hOrd => hrec.2.1 (hstep.2 hOrd), ?_⟩
      rcases hrec.2.2 with h | h
      · exact Or.inl h
      · refine Or.inr ?_
        rw [h]
        simp
        omega

theorem kahnInit_inv (rules : List Rule) (reqs : List (Int × List Int))
    (mods : List (Int × String)) (phases : Int → Int) :
    KahnInv (buildGraph rules reqs ((mods.map (·.1)).dedup)).1
      (buildGraph rules reqs ((mods.map (·.1)).dedup)).2
      ((mods.map (·.1)).dedup)
      (((mods.map (·.1)).dedup.filter (fun mid =>
        (buildGraph rules reqs ((mods.map (·.1)).dedup)).2 mid == 0)).map
          (mkTrip phases mods))
      (buildGraph rules reqs ((mods.map (·.1)).dedup)).2
      [] := by
  obtain ⟨hg1, hg2, hg3⟩ := graphInv_buildGraph rules reqs
    ((mods.map (·.1)).dedup)
  have hids_nd : ((mods.map (·.1)).dedup).Nodup := List.nodup_dedup _
  have hq0ids : (((mods.map (·.1)).dedup.filter (fun mid =>
      (buildGraph rules reqs ((mods.map (·.1)).dedup)).2 mid == 0)).map
        (mkTrip phases mods)).map (·.2.2) =
      (mods.map (·.1)).dedup.filter (fun mid =>
        (buildGraph rules reqs ((mods.map (·.1)).dedup)).2 mid == 0) := by
    rw [List.map_map]
    exact List.map_id' _
  refine ⟨?_, ?_, ?_, ?_, ?_, ?_, ?_⟩
  · rw [List.nil_append, hq0ids]
    exact hids_nd.filter _
  · intro m hm
    exact absurd hm (List.not_mem_nil m)
  · intro t ht
    rcases List.mem_map.1 ht with ⟨mid, hmid, rfl⟩
    exact (List.mem_filter.1 hmid).1
  · intro v
    unfold emitCnt
    simp
  · intro t ht
    rcases List.mem_map.1 ht with ⟨mid, hmid, rfl⟩
    have := (List.mem_filter.1 hmid).2
    simpa using this
  · intro m hm
    exact absurd hm (List.not_mem_nil m)
  · intro v hvids _ hvq
    rw [hq0ids] at hvq
    have hne : ¬ ((buildGraph rules reqs ((mods.map (·.1)).dedup)).2 v = 0) := by
      intro hh
      exact hvq (List.mem_filter.2 ⟨hvids, by simp [hh]⟩)
    have := hg3 v
    have hin : (0 : Int) ≤ (inCnt (buildGraph rules reqs
        ((mods.map (·.1)).dedup)).1 v : Int) := Int.ofNat_nonneg _
    omega

theorem stuck_set_empty (edges : List (Int × Int)) (hacyc : Acyclic edges) :
    ∀ (n : Nat) (T : List Int), T.length ≤ n → T.Nodup →
      (∀ v ∈ T, ∃ u ∈ T,
        Relation.TransGen (fun a b => (a, b) ∈ edges) u v) →
      T = [] := by
  intro n
  induction n with
  | zero =>
    intro T hlen _ _
    exact List.length_eq_zero.1 (Nat.le_zero.1 hlen)
  | succ n ih =>
    intro T hlen hnd hpred
    cases T with
    | nil => rfl
    | cons v₀ rest =>
      exfalso
      obtain ⟨u₀, hu₀T, hu₀trans⟩ := hpred v₀ (List.mem_cons_self v₀ rest)
      have hu₀ne : u₀ ≠ v₀ := fun hh => hacyc v₀ (hh ▸ hu₀trans)
      have hpred' : ∀ w ∈ rest, ∃ u ∈ rest,
          Relation.TransGen (fun a b => (a, b) ∈ edges) u w := by
        intro w hw
        obtain ⟨p, hpT, hptrans⟩ := hpred w (List.mem_cons_of_mem v₀ hw)
        by_cases hpv : p = v₀
        · have hu₀rest : u₀ ∈ rest := by
            rcases List.mem_cons.1 hu₀T with h | h
            · exact absurd h hu₀ne
            · exact h
          exact ⟨u₀, hu₀rest,
            Relation.TransGen.trans hu₀trans (hpv ▸ hptrans)⟩
        · have hprest : p ∈ rest := by
            rcases List.mem_cons.1 hpT with h | h
            · exact absurd h hpv
            · exact h
          exact ⟨p, hprest, hptrans⟩
      have hrest : rest = [] := by
        apply ih rest ?_ (List.nodup_cons.1 hnd).2 hpred'
        have := hlen
        simp only [List.length_cons] at this
        omega
      rw [hrest] at hu₀T
      rcases List.mem_cons.1 hu₀T with h | h
      · exact hu₀ne h
      · exact List.not_mem_nil u₀ h

theorem sort_mods_eq (rules : List Rule) (reqs : List (Int × List Int))
    (mods : List (Int × String)) (phases : Int → Int) :
    sort_mods rules reqs mods phases =
      (if (kahnEmitted rules reqs mods phases).length <
          ((mods.map (·.1)).dedup).length then
        kahnEmitted rules reqs mods phases ++ sortBy (fallbackLt phases mods)
          (((mods.map (·.1)).dedup).filter (fun mid =>
            !((kahnEmitted rules reqs mods phases).contains mid)))
      else kahnEmitted rules reqs mods phases) := rfl

theorem sort_mods_result (rules : List Rule) (reqs : List (Int × List Int))
    (mods : List (Int × String)) (phases : Int → Int) :
    (kahnEmitted rules reqs mods phases).Nodup ∧
    (∀ m ∈ kahnEmitted rules reqs mods phases, m ∈ (mods.map (·.1)).dedup) ∧
    OrdInv (buildGraph rules reqs ((mods.map (·.1)).dedup)).1
      (kahnEmitted rules reqs mods phases) ∧
    ((∀ v ∈ (mods.map (·.1)).dedup,
        (buildGraph rules reqs ((mods.map (·.1)).dedup)).2 v =
          (inCnt (buildGraph rules reqs ((mods.map (·.1)).dedup)).1 v : Int)) →
      Acyclic (buildGraph rules reqs ((mods.map (·.1)).dedup)).1 →
      ∀ m ∈ (mods.map (·.1)).dedup, m ∈ kahnEmitted rules reqs mods phases) := by
  obtain ⟨hg1, hg2, hg3⟩ := graphInv_buildGraph rules reqs
    ((mods.map (·.1)).dedup)
  have hfinal := kahnLoop_spec
    (buildGraph rules reqs ((mods.map (·.1)).dedup)).1
    (buildGraph rules reqs ((mods.map (·.1)).dedup)).2
    ((mods.map (·.1)).dedup) phases mods hg1 hg2 hg3
    ((mods.map (·.1)).dedup).length
    ((((mods.map (·.1)).dedup).filter (fun mid =>
      (buildGraph rules reqs ((mods.map (·.1)).dedup)).2 mid == 0)).map
        (mkTrip phases mods))
    (buildGraph rules reqs ((mods.map (·.1)).dedup)).2
    [] (kahnInit_inv rules reqs mods phases)
  obtain ⟨hinv, hord, hlen⟩ := hfinal
  obtain ⟨f1, f2, f3, f4, f5, f6, f7⟩ := hinv
  refine ⟨(List.nodup_append.1 f1).1, f2, ?_, ?_⟩
  · apply hord
    intro a b _ hb
    exact absurd hb (List.not_mem_nil b)
  · intro hinit hacyc m hm
    rcases hlen with hq | hl
    · by_contra hmE
      have hstuck := stuck_set_empty
        (buildGraph rules reqs ((mods.map (·.1)).dedup)).1 hacyc
        (((mods.map (·.1)).dedup).filter (fun v =>
          !((kahnEmitted rules reqs mods phases).contains v))).length
        (((mods.map (·.1)).dedup).filter (fun v =>
          !((kahnEmitted rules reqs mods phases).contains v)))
        (Nat.le_refl _) ((List.nodup_dedup _).filter _) ?_
      · have hmT : m ∈ ((mods.map (·.1)).dedup).filter (fun v =>
            !((kahnEmitted rules reqs mods phases).contains v)) := by
          apply List.mem_filter.2
          exact ⟨hm, by simp [hmE]⟩
        rw [hstuck] at hmT
        exact List.not_mem_nil m hmT
      · intro v hvT
        rcases List.mem_filter.1 hvT with ⟨hvids, hvc⟩
        have hvE : v ∉ kahnEmitted rules reqs mods phases := by
          rw [Bool.not_eq_true'] at hvc
          exact (contains_false_iff _ _).1 hvc
        have hvq : v ∉ (kahnFinalQ rules reqs mods phases).map (·.2.2) := by
          have hqq : kahnFinalQ rules reqs mods phases = [] := hq
          rw [hqq]
          exact List.not_mem_nil v
        have hpos := f7 v hvids hvE hvq
        have h4 := f4 v
        have he : (kahnLoop
            (buildGraph rules reqs ((mods.map (·.1)).dedup)).1 phases mods
            ((mods.map (·.1)).dedup).length
            ((((mods.map (·.1)).dedup).filter (fun mid =>
              (buildGraph rules reqs ((mods.map (·.1)).dedup)).2 mid == 0)).map
                (mkTrip phases mods))
            (buildGraph rules reqs ((mods.map (·.1)).dedup)).2 []).1 =
            kahnEmitted rules reqs mods phases := rfl
        rw [he] at h4
        have hiv := hinit v hvids
        have hlt : emitCnt (buildGraph rules reqs ((mods.map (·.1)).dedup)).1
            (kahnEmitted rules reqs mods phases) v <
            inCnt (buildGraph rules reqs ((mods.map (·.1)).dedup)).1 v := by
          omega
        obtain ⟨u, huv, huE⟩ := exists_unemitted_source _ _ v hg1 hlt
        refine ⟨u, ?_, Relation.TransGen.single huv⟩
        exact List.mem_filter.2 ⟨(hg2 _ huv).1, by simp [huE]⟩
    · by_contra hmE
      have hsub : kahnEmitted rules reqs mods phases ⊆
          (mods.map (·.1)).dedup := by
        intro x hx
        exact f2 x hx
      have hstrict := nodup_ssubset_length (List.nodup_append.1 f1).1 hsub
        hm hmE
      have hl' : (kahnEmitted rules reqs mods phases).length =
          ((mods.map (·.1)).dedup).length := by
        have := hl
        simpa using this
      omega

/-- C2: for every manifest rule list, requirement map and mod list —
acyclic or cyclic — the resolver output is a permutation of exactly the
input mod-id set: it is duplicate-free and contains precisely the mod ids
of the input (the cycle fallback appends the unvisited remainder sorted by
phase and lowercased name, so the operation always completes). -/
theorem sort_mods_permutation (rules : List Rule)
    (reqs : List (Int × List Int)) (mods : List (Int × String))
    (phases : Int → Int) :
    (sort_mods rules reqs mods phases).Nodup ∧
    ∀ m : Int, m ∈ sort_mods rules reqs mods phases ↔ m ∈ mods.map (·.1) := by
  obtain ⟨hnd, hsub, _, _⟩ := sort_mods_result rules reqs mods phases
  rw [sort_mods_eq]
  by_cases hlt : (kahnEmitted rules reqs mods phases).length <
      ((mods.map (·.1)).dedup).length
  · rw [if_pos hlt]
    constructor
    · apply hnd.append
        ((sortBy_perm _ _).nodup_iff.2 ((List.nodup_dedup _).filter _))
      intro x hxE hxS
      have hxf := (sortBy_perm _ _).mem_iff.1 hxS
      have hcf := (List.mem_filter.1 hxf).2
      rw [Bool.not_eq_true'] at hcf
      exact (contains_false_iff _ _).1 hcf hxE
    · intro m
      constructor
      · intro hm
        rcases List.mem_append.1 hm with h | h
        · exact List.mem_dedup.1 (hsub m h)
        · exact List.mem_dedup.1
            (List.mem_filter.1 ((sortBy_perm _ _).mem_iff.1 h)).1
      · intro hm
        by_cases hmE : m ∈ kahnEmitted rules reqs mods phases
        · exact List.mem_append_left _ hmE
        · exact List.mem_append_right _ ((sortBy_perm _ _).mem_iff.2
            (List.mem_filter.2 ⟨List.mem_dedup.2 hm, by simp [hmE]⟩))
  · rw [if_neg hlt]
    have hall : ∀ m ∈ (mods.map (·.1)).dedup,
        m ∈ kahnEmitted rules reqs mods phases := by
      intro m hm
      by_contra hmE
      have hsub' : kahnEmitted rules reqs mods phases ⊆
          (mods.map (·.1)).dedup := by
        intro x hx
        exact hsub x hx
      exact hlt (nodup_ssubset_length hnd hsub' hm hmE)
    exact ⟨hnd, fun m => ⟨fun hm => List.mem_dedup.1 (hsub m hm),
      fun hm => hall m (List.mem_dedup.2 hm)⟩⟩

/-- C3, amended: if the dependency graph built from the authored rules and
requirement edges is acyclic AND no two rules induce the same edge (so the
accumulated in-degree of every active mod equals its distinct in-edge
count), then for every edge `u → v` the output position of `u` is strictly
below that of `v`.  Rules build edges as `before(a,b) ⇒ a→b`,
`after(a,b) ⇒ b→a`, `requires(a,b) ⇒ b→a`, plus `req→dependent` for every
declared requirement, and any rule naming a mod outside the active set
contributes nothing — exactly as `buildGraph` encodes. -/
theorem sort_mods_topological_amended (rules : List Rule)
    (reqs : List (Int × List Int)) (mods : List (Int × String))
    (phases : Int → Int)
    (hacyc : Acyclic (buildGraph rules reqs ((mods.map (·.1)).dedup)).1)
    (hinit : ∀ v ∈ (mods.map (·.1)).dedup,
      (buildGraph rules reqs ((mods.map (·.1)).dedup)).2 v =
        (inCnt (buildGraph rules reqs ((mods.map (·.1)).dedup)).1 v : Int)) :
    ∀ a b : Int,
      (a, b) ∈ (buildGraph rules reqs ((mods.map (·.1)).dedup)).1 →
      idxOf (sort_mods rules reqs mods phases) a <
        idxOf (sort_mods rules reqs mods phases) b := by
  obtain ⟨hnd, hsub, hord, hcomp⟩ := sort_mods_result rules reqs mods phases
  obtain ⟨hg1, hg2, hg3⟩ := graphInv_buildGraph rules reqs
    ((mods.map (·.1)).dedup)
  have hall := hcomp hinit hacyc
  have hres : sort_mods rules reqs mods phases =
      kahnEmitted rules reqs mods phases := by
    rw [sort_mods_eq]
    rw [if_neg ?_]
    have hge : ((mods.map (·.1)).dedup).length ≤
        (kahnEmitted rules reqs mods phases).length := by
      apply nodup_subset_length (List.nodup_dedup _)
      intro x hx
      exact hall x hx
    omega
  intro a b hab
  rw [hres]
  exact (hord a b hab (hall b (hg2 _ hab).2)).2

/-- Witness for `sort_mods_topological_amended`: mods 1,2,3 with the single
rule `before(1, 2)` — an acyclic graph with no duplicated rule edge. -/
theorem sort_mods_topological_amended_witness :
    (Acyclic (buildGraph [⟨"before", some 1, some 2⟩] []
        ((([(1, "a"), (2, "b"), (3, "c")] : List (Int × String)).map
          (·.1)).dedup)).1 ∧
      ∀ v ∈ (([(1, "a"), (2, "b"), (3, "c")] : List (Int × String)).map
          (·.1)).dedup,
        (buildGraph [⟨"before", some 1, some 2⟩] []
          ((([(1, "a"), (2, "b"), (3, "c")] : List (Int × String)).map
            (·.1)).dedup)).2 v =
          (inCnt (buildGraph [⟨"before", some 1, some 2⟩] []
            ((([(1, "a"), (2, "b"), (3, "c")] : List (Int × String)).map
              (·.1)).dedup)).1 v : Int)) ∧
    (∀ a b : Int,
      (a, b) ∈ (buildGraph [⟨"before", some 1, some 2⟩] []
        ((([(1, "a"), (2, "b"), (3, "c")] : List (Int × String)).map
          (·.1)).dedup)).1 →
      idxOf (sort_mods [⟨"before", some 1, some 2⟩] []
          [(1, "a"), (2, "b"), (3, "c")] (fun _ => 0)) a <
        idxOf (sort_mods [⟨"before", some 1, some 2⟩] []
          [(1, "a"), (2, "b"), (3, "c")] (fun _ => 0)) b) := by
  have hedges : (buildGraph [⟨"before", some 1, some 2⟩] []
      ((([(1, "a"), (2, "b"), (3, "c")] : List (Int × String)).map
        (·.1)).dedup)).1 = [(1, 2)] := by decide
  have hacyc : Acyclic (buildGraph [⟨"before", some 1, some 2⟩] []
      ((([(1, "a"), (2, "b"), (3, "c")] : List (Int × String)).map
        (·.1)).dedup)).1 := by
    intro v
    rw [hedges]
    apply acyclic_of_rank _ (fun v => if v = 1 then 0 else 1)
    intro a b hab
    have hab' := List.mem_singleton.1 hab
    injection hab' with h1 h2
    subst h1
    subst h2
    decide
  exact ⟨⟨hacyc, by decide⟩,
    sort_mods_topological_amended [⟨"before", some 1, some 2⟩] []
      [(1, "a"), (2, "b"), (3, "c")] (fun _ => 0) hacyc (by decide)⟩

end NexusDL
